import Mathlib

/-!
Verification development for the AutoOrganizer file-organization system.

The Python source is shallowly embedded: pure helpers become Lean
functions, filesystem state becomes an explicit association list from
paths to byte contents, and fallible operations return `Except`/`Option`.
Machine-level concerns (actual SHA-256, OS scheduling, real clocks) are
modelled by explicit parameters: an abstract digest function, an abstract
corruption function for the destination filesystem, and integer
timestamps.
-/

set_option maxHeartbeats 1600000

namespace AutoOrganizer

/-! ## Association lists (Python `dict` with insertion order) -/

/-- Lookup in an association list (first matching key wins). -/
def alistGet {κ α : Type} [DecidableEq κ] : List (κ × α) → κ → Option α
  | [], _ => none
  | (k, v) :: rest, q => if k = q then some v else alistGet rest q

/-- Assignment `d[k] = v` on a Python dict: replace in place if the key is
present (keeping its position), otherwise append at the end. -/
def alistSet {κ α : Type} [DecidableEq κ] : List (κ × α) → κ → α → List (κ × α)
  | [], k, v => [(k, v)]
  | (k', v') :: rest, k, v =>
    if k' = k then (k, v) :: rest else (k', v') :: alistSet rest k v

/-- Deletion `del d[k]`: drop every binding of the key. -/
def alistDrop {κ α : Type} [DecidableEq κ] : List (κ × α) → κ → List (κ × α)
  | [], _ => []
  | (k', v') :: rest, k =>
    if k' = k then alistDrop rest k else (k', v') :: alistDrop rest k

/-! ## Paths

A `pathlib.Path` is modelled as its directory components plus the final
name; `parts` is the full component list. -/

structure FPath where
  dir : List String
  name : String
deriving DecidableEq

/-- All components of the path, the final name last (`Path.parts`). -/
def FPath.parts (p : FPath) : List String := p.dir ++ [p.name]

/-- `Path.with_name`: same directory, different final component. -/
def FPath.withName (p : FPath) (n : String) : FPath := ⟨p.dir, n⟩

/-- `str(path)` - components joined by the separator. -/
def pathString (p : FPath) : String := String.intercalate "/" p.parts

/-- Split a file name into `(stem, suffix)` following `pathlib`: the
suffix starts at the last dot, provided that dot is neither the first nor
the last character of the name; otherwise the suffix is empty. -/
def sufSplit (name : String) : String × String :=
  if name.data.reverse.takeWhile (fun c => decide (c ≠ '.')) ≠ [] ∧
      2 ≤ (name.data.reverse.dropWhile (fun c => decide (c ≠ '.'))).length then
    ((name.data.reverse.dropWhile (fun c => decide (c ≠ '.'))).tail.reverse.asString,
     ('.' :: (name.data.reverse.takeWhile (fun c => decide (c ≠ '.'))).reverse).asString)
  else (name, "")

/-- `Path.stem`. -/
def stemOf (name : String) : String := (sufSplit name).1

/-- `Path.suffix`. -/
def sufOf (name : String) : String := (sufSplit name).2

/-! ## Decimal rendering of naturals

`Planner._handle_conflict` and `FileMover._next_available` synthesize
names `f"{stem} ({n}){ext}"`; `str(n)` is `Nat.repr` in Lean.  Freeness of
the synthesized name relies on distinct `n` giving distinct strings, so we
prove `Nat.repr` injective. -/

/-- Decimal digits of `n`, most significant first, as characters. -/
def natChars (n : Nat) : List Char :=
  if _h : n < 10 then [Nat.digitChar n]
  else natChars (n / 10) ++ [Nat.digitChar (n % 10)]
termination_by n
decreasing_by exact Nat.div_lt_self (by omega) (by omega)

/-- One step of reading a decimal string back into a number. -/
def decodeStep (acc : Nat) (c : Char) : Nat := acc * 10 + (c.toNat - 48)

/-! ## Conflict renaming (`Planner._handle_conflict`, lines 192-211)

`f"{stem} ({n}){ext}"` applied to a destination name, with `n` counting up
from 1 while the candidate exists on disk.  The Python `while` loop is
modelled with explicit fuel `disk.length + 1`; `renameLoop_free` below
shows the loop exits (finds a free name) strictly before the fuel runs
out, so the fueled function computes the same answer as the unbounded
loop. -/

/-- The synthesized conflict name `f"{stem} ({n}){ext}"` (`str(n)` is `Nat.repr`). -/
def conflictName (stem : String) (n : Nat) (ext : String) : String :=
  stem ++ " (" ++ Nat.repr n ++ ")" ++ ext

/-- `destination.with_name(f"{stem} ({n}){suffix}")`. -/
def mkRenamed (dest : FPath) (n : Nat) : FPath :=
  dest.withName (conflictName (stemOf dest.name) n (sufOf dest.name))

/-- The `while candidate.exists()` loop of `Planner._handle_conflict`
(also the body of `FileMover._next_available`): starting from a candidate
and counter `n`, replace the candidate by `mkRenamed dest n` and increment
`n` while the candidate is on disk. -/
def renameLoop (disk : List FPath) (dest : FPath) : Nat → Nat → FPath → FPath
  | 0, _, cand => cand
  | fuel + 1, n, cand =>
    if cand ∈ disk then renameLoop disk dest fuel (n + 1) (mkRenamed dest n) else cand

/-! ## Planner conflict handling and the per-plan destination list -/

inductive ConflictStrategy
  | rename
  | skip
  | overwrite
deriving DecidableEq

/-- `Planner._handle_conflict`: returns
`(final destination, conflict detected, skipped due to conflict)`.
The on-disk state is the list of existing paths; note the function
consults only the disk, never destinations already planned in this run. -/
def handleConflict (disk : List FPath) (strat : ConflictStrategy) (dest : FPath) :
    FPath × Bool × Bool :=
  if dest ∈ disk then
    match strat with
    | .overwrite => (dest, true, false)
    | .skip => (dest, true, true)
    | .rename => (renameLoop disk dest (disk.length + 1) 1 dest, true, false)
  else (dest, false, false)

/-- The destination-assignment loop of `Planner.build_plan` (lines 65-113),
abstracted to its inputs: for each candidate the requested destination
(`_resolve_destination`'s output), processed in order.  `_handle_conflict`
is called per candidate against the unchanging disk; candidates skipped by
the `skip` strategy contribute no planned destination.  No accumulator of
already-planned destinations exists in the source, which this definition
mirrors. -/
def planDests (disk : List FPath) (strat : ConflictStrategy) (reqs : List FPath) :
    List FPath :=
  reqs.filterMap fun d =>
    let r := handleConflict disk strat d
    if r.2.2 then none else some r.1

/-! ## Filesystem model for the execution engine

A filesystem is a finite map from paths to byte contents (bytes as `Nat`).
Directories are implicit (`mkdir` is a no-op in the model). -/

abbrev FS := List (FPath × List Nat)

/-- `FileMover._copy_with_verification` temp path:
`destination.with_suffix(destination.suffix + ".ao_tmp")`. -/
def tempPath (dst : FPath) : FPath :=
  dst.withName (stemOf dst.name ++ (sufOf dst.name ++ ".ao_tmp"))

/-- Bool test: does the second list start with the first? -/
def listStarts {α : Type} [DecidableEq α] : List α → List α → Bool
  | [], _ => true
  | _ :: _, [] => false
  | a :: as, b :: bs => if a = b then listStarts as bs else false

/-- Does `s` end with `t`? -/
def strEnds (s t : String) : Bool := listStarts t.data.reverse s.data.reverse

/-! ## Execution engine (`FileMover`)

SHA-256 is modelled by an abstract digest function `hash`; the destination
volume's behaviour while writing the temp file is modelled by a `corrupt`
function applied to the streamed bytes (identity = healthy filesystem),
matching the spec's "destination filesystem corrupts data during copy"
fault model. -/

structure PlanItem where
  source : FPath
  destination : FPath
  operation : String
  sameVolume : Bool
  size : Nat
  conflict : Bool
  flags : List String
deriving DecidableEq

structure RollbackStep where
  source : FPath
  destination : FPath
  operation : String
deriving DecidableEq

inductive ItemOutcome
  | success (step : RollbackStep)
  | skippedFlag
  | skippedConflict (msg : String)
  | error (msg : String)
deriving DecidableEq

/-- `FileMover._next_available`: the same counting loop as the planner's
rename strategy, run against the execution-time filesystem. -/
def nextAvailable (fs : FS) (dest : FPath) : FPath :=
  renameLoop (fs.map Prod.fst) dest (fs.length + 1) 1 dest

/-- The `destination.exists()` re-check at the top of
`FileMover._execute_item`: plans may be stale, so the execution-time
conflict policy is applied again. -/
def resolveExecDest (strat : ConflictStrategy) (fs : FS) (dst : FPath) :
    Except String FPath :=
  if (alistGet fs dst).isSome then
    match strat with
    | .skip => .error "Destination already exists"
    | .rename => .ok (nextAvailable fs dst)
    | .overwrite => .ok dst
  else .ok dst

/-- `FileMover._copy_with_verification`: stream the source to a temp file
(hashing the stream), then hash the temp file independently; on mismatch
delete the temp file and fail, on match atomically publish temp to the
final destination.  Returns the filesystem after the call together with
`ok digest` or the raised error. -/
def copyWithVerification (hash corrupt : List Nat → List Nat) (fs : FS)
    (src dst : FPath) : FS × Except String (List Nat) :=
  match alistGet fs src with
  | none => (fs, .error "FileNotFoundError")
  | some content =>
    let temp := tempPath dst
    let written := corrupt content
    let fs1 := alistSet fs temp written
    if hash content = hash written then
      (alistSet (alistDrop fs1 temp) dst written, .ok (hash content))
    else
      (alistDrop fs1 temp, .error "SHA-256 mismatch after copy")

/-- `FileMover._execute_item`.  The third component is the item's
`hash_digest` after execution (`none` = never assigned); note Python
assigns it right after `_copy_with_verification` returns, before
`_delete_source`, which the model mirrors. -/
def executeItem (strat : ConflictStrategy) (hash corrupt : List Nat → List Nat)
    (fs : FS) (item : PlanItem) : FS × ItemOutcome × Option (List Nat) :=
  match resolveExecDest strat fs item.destination with
  | .error m => (fs, .skippedConflict m, none)
  | .ok destination =>
    if item.operation = "rename" then
      match alistGet fs item.source with
      | none => (fs, .error "FileNotFoundError", none)
      | some c =>
        (alistSet (alistDrop fs item.source) destination c,
         .success ⟨destination, item.source, "rename"⟩, none)
    else if item.operation = "copy" then
      match copyWithVerification hash corrupt fs item.source destination with
      | (fs1, .error m) => (fs1, .error m, none)
      | (fs1, .ok digest) =>
        match alistGet fs1 item.source with
        | none => (fs1, .error "FileNotFoundError", some digest)
        | some _ =>
          (alistDrop fs1 item.source,
           .success ⟨destination, item.source, "restore"⟩, some digest)
    else (fs, .error "Unsupported operation", none)

/-- Observable events of one `execute_plan` run, in order: each item's
processing, and each durable write of the rollback log. -/
inductive TraceEvent
  | itemDone (idx : Nat) (outcome : ItemOutcome)
  | rollbackWritten (steps : List RollbackStep)
deriving DecidableEq

structure RunResult where
  fs : FS
  steps : List RollbackStep
  perItem : List (PlanItem × ItemOutcome × Option (List Nat))
  processed : Nat
  succeeded : Nat
  skipped : Nat
  failed : Nat
  bytesProcessed : Nat
  errors : List String
  trace : List TraceEvent

/-- The per-item loop of `FileMover.execute_plan` (lines 56-93): the
pre-check skips items that carry a `conflict` flag under the `skip`
strategy; otherwise `_execute_item` runs and its outcome updates the
counters.  Rollback steps are accumulated in plan order; no write of the
rollback log happens inside the loop. -/
def runItems (strat : ConflictStrategy) (hash corrupt : List Nat → List Nat) :
    FS → Nat → List PlanItem → RunResult
  | fs, _, [] =>
    { fs := fs, steps := [], perItem := [], processed := 0, succeeded := 0,
      skipped := 0, failed := 0, bytesProcessed := 0, errors := [], trace := [] }
  | fs, i, item :: rest =>
    if item.flags ≠ [] ∧ "conflict" ∈ item.flags ∧ strat = .skip then
      let r := runItems strat hash corrupt fs (i + 1) rest
      { fs := r.fs, steps := r.steps,
        perItem := (item, .skippedFlag, none) :: r.perItem,
        processed := r.processed + 1, succeeded := r.succeeded,
        skipped := r.skipped + 1, failed := r.failed,
        bytesProcessed := r.bytesProcessed, errors := r.errors,
        trace := .itemDone i .skippedFlag :: r.trace }
    else
      match executeItem strat hash corrupt fs item with
      | (fs', .success step, digest) =>
        let r := runItems strat hash corrupt fs' (i + 1) rest
        { fs := r.fs, steps := step :: r.steps,
          perItem := (item, .success step, digest) :: r.perItem,
          processed := r.processed + 1, succeeded := r.succeeded + 1,
          skipped := r.skipped, failed := r.failed,
          bytesProcessed := r.bytesProcessed + item.size, errors := r.errors,
          trace := .itemDone i (.success step) :: r.trace }
      | (fs', .skippedConflict m, digest) =>
        let r := runItems strat hash corrupt fs' (i + 1) rest
        { fs := r.fs, steps := r.steps,
          perItem := (item, .skippedConflict m, digest) :: r.perItem,
          processed := r.processed + 1, succeeded := r.succeeded,
          skipped := r.skipped + 1, failed := r.failed,
          bytesProcessed := r.bytesProcessed, errors := r.errors,
          trace := .itemDone i (.skippedConflict m) :: r.trace }
      | (fs', .skippedFlag, digest) =>
        let r := runItems strat hash corrupt fs' (i + 1) rest
        { fs := r.fs, steps := r.steps,
          perItem := (item, .skippedFlag, digest) :: r.perItem,
          processed := r.processed + 1, succeeded := r.succeeded,
          skipped := r.skipped + 1, failed := r.failed,
          bytesProcessed := r.bytesProcessed, errors := r.errors,
          trace := .itemDone i .skippedFlag :: r.trace }
      | (fs', .error m, digest) =>
        let r := runItems strat hash corrupt fs' (i + 1) rest
        { fs := r.fs, steps := r.steps,
          perItem := (item, .error m, digest) :: r.perItem,
          processed := r.processed + 1, succeeded := r.succeeded,
          skipped := r.skipped,
          failed := r.failed + 1,
          bytesProcessed := r.bytesProcessed,
          errors := ("Failed to move " ++ pathString item.source ++ ": " ++ m) :: r.errors,
          trace := .itemDone i (.error m) :: r.trace }

/-- `FileMover.execute_plan`: run all items, then persist the rollback log
once, after the loop (`_write_rollback` at line 95). -/
def executePlan (strat : ConflictStrategy) (hash corrupt : List Nat → List Nat)
    (fs : FS) (items : List PlanItem) : RunResult :=
  let r := runItems strat hash corrupt fs 0 items
  { fs := r.fs, steps := r.steps, perItem := r.perItem, processed := r.processed,
    succeeded := r.succeeded, skipped := r.skipped, failed := r.failed,
    bytesProcessed := r.bytesProcessed, errors := r.errors,
    trace := r.trace ++ [.rollbackWritten r.steps] }

def isWriteEvent : TraceEvent → Bool
  | .rollbackWritten _ => true
  | _ => false

/-- The claim's per-item durability property as a trace predicate: between
any two consecutive `itemDone` events there is at least one
`rollbackWritten` event. -/
def sepAux : List TraceEvent → Bool → Bool
  | [], _ => true
  | TraceEvent.rollbackWritten _ :: rest, _ => sepAux rest true
  | TraceEvent.itemDone _ _ :: rest, wroteSince => wroteSince && sepAux rest false

def perItemDurable (tr : List TraceEvent) : Bool := sepAux tr true

/-! ## System/sensitive filter (`SystemFilter`) -/

structure FileCandidate where
  path : FPath
  size : Nat
deriving DecidableEq

structure FilterDecision where
  candidate : FileCandidate
  shouldSkip : Bool
  reason : Option String
  flags : List String
deriving DecidableEq

/-- `SystemFilter` configuration after `__init__` normalisation:
`whitelist` lowercased, `sensitiveKeywords` the user-supplied keywords
(lowercased) together with the built-in defaults, and
`sensitiveSkip ↔ sensitive_action == "skip"`. -/
structure SFConfig where
  whitelist : List String
  sensitiveKeywords : List String
  maxNameLength : Nat
  skipHidden : Bool
  skipEmpty : Bool
  sensitiveSkip : Bool
deriving DecidableEq

/-- Python `str.lower()` (ASCII case folding suffices for the rule sets). -/
def strLower (s : String) : String := ⟨s.data.map Char.toLower⟩

def defaultSensitiveKeywords : List String :=
  ["password", "密碼", "private", "機密", "confidential", "secret"]

/-- `SystemFilter.__init__`. -/
def mkSFConfig (whitelist sensitiveKeywords : List String) (maxNameLength : Nat)
    (skipHidden skipEmpty sensitiveSkip : Bool) : SFConfig :=
  ⟨whitelist.map strLower,
   sensitiveKeywords.map strLower ++ defaultSensitiveKeywords,
   maxNameLength, skipHidden, skipEmpty, sensitiveSkip⟩

/-- Substring occurrence on character lists (`needle in hay`). -/
def charsInfix : List Char → List Char → Bool
  | needle, [] => listStarts needle []
  | needle, c :: t => listStarts needle (c :: t) || charsInfix needle t

/-- Python `needle in hay` on strings. -/
def strContains (hay needle : String) : Bool := charsInfix needle.data hay.data

/-- Python `s.startswith(pre)`. -/
def strStarts (s pre : String) : Bool := listStarts pre.data s.data

def defaultExcludes : List String :=
  [".DS_Store", "Thumbs.db", "__MACOSX", "__pycache__", ".git", ".svn", "node_modules"]

def tempSufs : List String := [".tmp", ".temp", ".part", ".partial"]

def tempPres : List String := ["~$", "._"]

def cloudSufs : List String := [".icloud", ".icloud~", ".onepkg", ".one"]

def cloudKeywords : List String := ["onedrive", "dropbox", "icloud"]

def developerFolders : List String := ["build", "dist", "venv", ".venv", "env", ".idea"]

def isSystemFile (p : FPath) : Bool :=
  decide (p.name ∈ defaultExcludes) || p.parts.any (fun part => decide (part ∈ defaultExcludes))

def isHidden (p : FPath) : Bool :=
  p.parts.any (fun part =>
    strStarts part "." && decide (part ≠ "..") && decide (part ≠ "."))

def isTemporary (p : FPath) : Bool :=
  tempPres.any (fun pre => strStarts p.name pre)
  || tempSufs.any (fun suf => strEnds p.name suf)
  || strEnds p.name "~"

def isDeveloperPath (p : FPath) : Bool :=
  p.parts.any (fun part => decide (strLower part ∈ developerFolders))

def isNameTooLong (cfg : SFConfig) (p : FPath) : Bool :=
  decide (cfg.maxNameLength < p.name.utf8ByteSize)

def containsSensitiveKeyword (cfg : SFConfig) (p : FPath) : Bool :=
  cfg.sensitiveKeywords.any (fun kw => strContains (strLower p.name) kw)

def isCloudPlaceholder (p : FPath) (size : Nat) : Bool :=
  cloudSufs.any (fun suf => strEnds (strLower p.name) suf)
  || (decide (size = 0)
      && cloudKeywords.any (fun kw => strContains (strLower (pathString p)) kw))

def isWhitelisted (cfg : SFConfig) (p : FPath) : Bool :=
  !cfg.whitelist.isEmpty
  && cfg.whitelist.any (fun tok => strContains (strLower (pathString p)) tok)

/-- The `checks` list built by `SystemFilter.evaluate` (lines 74-82):
`(condition, reason token, flag)` in the fixed order. -/
def checksFor (cfg : SFConfig) (c : FileCandidate) : List (Bool × String × String) :=
  [(isCloudPlaceholder c.path c.size, "cloud_placeholder", "cloud-placeholder"),
   (cfg.skipHidden && isHidden c.path, "hidden", "hidden"),
   (isSystemFile c.path, "system", "system"),
   (isDeveloperPath c.path, "developer", "developer"),
   (isTemporary c.path, "temporary", "temporary"),
   (isNameTooLong cfg c.path, "name_too_long", "long-name"),
   (cfg.skipEmpty && decide (c.size = 0), "empty_file", "empty")]

/-- `reason = reason_token if reason is None else reason`. -/
def mergeReason (reason : Option String) (tok : String) : Option String :=
  match reason with
  | none => some tok
  | some r => some r

/-- The `for condition, reason_token, flag in checks` loop: accumulated
`(flags, reason, should_skip)`. -/
def runChecks : List (Bool × String × String) →
    List String → Option String → Bool → List String × Option String × Bool
  | [], flags, reason, sk => (flags, reason, sk)
  | e :: rest, flags, reason, sk =>
    if e.1 then
      runChecks rest (flags ++ [e.2.2]) (mergeReason reason e.2.1) true
    else runChecks rest flags reason sk

/-- `SystemFilter.evaluate`. -/
def evaluate (cfg : SFConfig) (c : FileCandidate) : FilterDecision :=
  if isWhitelisted cfg c.path then
    ⟨c, false, none, ["whitelisted"]⟩
  else
    let r := runChecks (checksFor cfg c) [] none false
    let sensitive := containsSensitiveKeyword cfg c.path
    let flags := if sensitive then r.1 ++ ["sensitive"] else r.1
    let reason :=
      if sensitive && cfg.sensitiveSkip then
        (match r.2.1 with | none => some "sensitive_keyword" | some x => some x)
      else r.2.1
    let sk := if sensitive && cfg.sensitiveSkip then true else r.2.2
    ⟨c, sk, reason, flags⟩

/-- Spec-side reference for C5: the token of the first rule, in the fixed
order cloud-placeholder, hidden, system, developer, temporary,
name-too-long, empty, sensitive-keyword, that matched and triggered a
skip. -/
def firstSkipReasonSpec (cfg : SFConfig) (c : FileCandidate) : Option String :=
  match (checksFor cfg c).find? (fun t => t.1) with
  | some t => some t.2.1
  | none =>
    if containsSensitiveKeyword cfg c.path && cfg.sensitiveSkip then
      some "sensitive_keyword"
    else none

/-- Spec-side reference for C5: the flags of all matching rules, the
skip-triggering ones and the flag-only sensitive rule alike. -/
def allFlagsSpec (cfg : SFConfig) (c : FileCandidate) : List String :=
  ((checksFor cfg c).filter (fun t => t.1)).map (fun t => t.2.2)
    ++ (if containsSensitiveKeyword cfg c.path then ["sensitive"] else [])

/-! ## Realtime event queue (`watcher/event_queue.py`)

Monotonic timestamps are modelled as integers; the pending map is an
association list in insertion order (Python dict semantics). -/

inductive EventType
  | created
  | modified
  | deleted
  | moved
deriving DecidableEq

structure FSEvent where
  path : FPath
  eventType : EventType
  timestamp : Int
  isDirectory : Bool
  destPath : Option FPath
  metadata : List (String × String)
deriving DecidableEq

structure QueuedEvent where
  event : FSEvent
  lastSeen : Int
deriving DecidableEq

/-- `dict.update`: overlay the new bindings onto the old map. -/
def dictUpdate (old new : List (String × String)) : List (String × String) :=
  new.foldl (fun acc kv => alistSet acc kv.1 kv.2) old

/-- `EventQueue._merge_events`: merge a new event into the existing
pending event for the same path. -/
def mergeEvents (existing new : FSEvent) : FSEvent :=
  let mergedType :=
    if new.eventType = EventType.deleted then EventType.deleted
    else if new.eventType = EventType.moved then EventType.moved
    else if existing.eventType = EventType.created ∧ new.eventType = EventType.modified then
      EventType.created
    else new.eventType
  { path := existing.path
    eventType := mergedType
    timestamp := new.timestamp
    isDirectory := new.isDirectory
    destPath := match new.destPath with | some d => some d | none => existing.destPath
    metadata := dictUpdate existing.metadata new.metadata }

structure EQState where
  pending : List (FPath × QueuedEvent)
deriving DecidableEq

/-- `EventQueue.add`: merge into the pending event when the previous event
for the path is at most `debounce` old, otherwise store the new event
wholesale (replacing any stale pending event for that path). -/
def EQState.add (q : EQState) (debounce now : Int) (event : FSEvent) : EQState :=
  match alistGet q.pending event.path with
  | some queued =>
    if now - queued.lastSeen ≤ debounce then
      ⟨alistSet q.pending event.path ⟨mergeEvents queued.event event, now⟩⟩
    else
      ⟨alistSet q.pending event.path ⟨event, now⟩⟩
  | none => ⟨alistSet q.pending event.path ⟨event, now⟩⟩

/-- `EventQueue.flush_due`: emit (in pending order) every event that is
due (or all of them under `force`), removing them from the state. -/
def flushDue (q : EQState) (flushInterval now : Int) (force : Bool) :
    List FSEvent × EQState :=
  ((q.pending.filter
      (fun kv => force || decide (flushInterval ≤ now - kv.2.lastSeen))).map
        (fun kv => kv.2.event),
   ⟨q.pending.filter
      (fun kv => !(force || decide (flushInterval ≤ now - kv.2.lastSeen)))⟩)

/-- Spec-side merge table for C6: new DELETED wins, new MOVED wins,
CREATED + MODIFIED collapses to CREATED, otherwise the new type replaces
the old. -/
def mergeTypeSpec (ex new : EventType) : EventType :=
  if new = EventType.deleted then EventType.deleted
  else if new = EventType.moved then EventType.moved
  else if ex = EventType.created ∧ new = EventType.modified then EventType.created
  else new

/-- Well-formedness of the pending map: keys are distinct and every queued
event is stored under its own path. -/
def EQState.wf (q : EQState) : Prop :=
  (q.pending.map Prod.fst).Nodup ∧ ∀ kv ∈ q.pending, kv.2.event.path = kv.1

/-! ## Rollback manager (`rollback.py`) -/

structure RollbackEntry where
  originalPath : FPath
  backupPath : FPath
  sha256 : List Nat
  size : Option Nat
deriving DecidableEq

/-- `_matches`: some filter token occurs in the original or the backup
path string. -/
def entryMatches (e : RollbackEntry) (tf : List String) : Bool :=
  tf.any (fun tok => strContains (pathString e.originalPath) tok
    || strContains (pathString e.backupPath) tok)

/-- `shutil.move(backup, destination)` in the byte-content model. -/
def moveFile (fs : FS) (src dst : FPath) (content : List Nat) : FS :=
  alistSet (alistDrop fs src) dst content

/-- `RollbackManager.restore` (SHA-256 abstracted by `hash`): for each
entry, apply the optional substring filter, skip (continuing the batch) if
the backup is missing or its recomputed digest differs from the recorded
one, otherwise move the backup back to the original location (unless
`dryRun`) and record the original path as restored. -/
def restore (hash : List Nat → List Nat) (fs : FS) (dryRun : Bool)
    (tf : List String) : List RollbackEntry → FS × List FPath
  | [] => (fs, [])
  | e :: rest =>
    if tf ≠ [] ∧ entryMatches e tf = false then restore hash fs dryRun tf rest
    else
      match alistGet fs e.backupPath with
      | none => restore hash fs dryRun tf rest
      | some content =>
        if hash content ≠ e.sha256 then restore hash fs dryRun tf rest
        else
          let fs' := if dryRun then fs else moveFile fs e.backupPath e.originalPath content
          let r := restore hash fs' dryRun tf rest
          (r.1, e.originalPath :: r.2)

/-! ## Classification engine (`classifier.py`)

External deterministic services are modelled as fixed oracle functions:
`re.search` over a pattern and the lowercased file name,
`mimetypes.guess_type` over the path string, `_parse_magic_pattern`
(hex/UTF-8 decoding) over a pattern, and `json.dumps` of a size rule for
its rationale string.  The first 32 bytes of the file are part of the
candidate (`none` = unreadable, an I/O error).  Confidence is a rational
`min(weight / 100, 1)`. -/

structure Decision where
  weight : Nat
  source : String
  category : String
  rationale : String
deriving DecidableEq

structure ClassCand where
  path : FPath
  size : Nat
  header : Option (List Nat)
deriving DecidableEq

structure SizeRule where
  min : Option Nat
  max : Option Nat
  category : Option String
deriving DecidableEq

structure Oracles where
  regexSearch : String → String → Bool
  guessMime : String → Option String
  magicBytes : String → Option (List Nat)
  jsonDumps : SizeRule → String

structure Rules where
  extension : List (String × String)
  keyword : List (String × String)
  sizeRules : List SizeRule
  mime : List (String × String)
  magic : List (String × String)
  defaultCategory : String

structure CResult where
  category : String
  confidence : ℚ
  rationale : String
deriving DecidableEq

/-- `_normalise_suffix`. -/
def normaliseSuffix (s : String) : String :=
  if s = "" then s
  else if strStarts s "." then strLower s
  else "." ++ strLower s

/-- The fixed tie-break order `["extension", "keyword", "magic", "mime",
"size"]` (`_source_priority`); unknown sources rank last. -/
def sourcePriority (source : String) : Nat :=
  if source = "extension" then 0
  else if source = "keyword" then 1
  else if source = "magic" then 2
  else if source = "mime" then 3
  else if source = "size" then 4
  else 5

abbrev ExtCache := List (String × String)

/-- `_extension_cache_get`: on a hit, pop the entry and reinsert it at the
end (the LRU touch), returning the cached category. -/
def extCacheGet (cache : ExtCache) (suf : String) : Option String × ExtCache :=
  match alistGet cache suf with
  | some cat => (some cat, alistDrop cache suf ++ [(suf, cat)])
  | none => (none, cache)

/-- `_remember_extension`: store the binding, evicting the oldest entry
once the capacity of 1000 is exceeded. -/
def rememberExtension (cache : ExtCache) (suf cat : String) : ExtCache :=
  let c := alistSet cache suf cat
  if 1000 < c.length then c.drop 1 else c

/-- The mapping lookup half of `_classify_by_extension` (cache miss, or
cached empty string which is falsy in Python). -/
def extLookup (rules : Rules) (cache : ExtCache) (suf : String) :
    Option Decision × ExtCache :=
  match alistGet rules.extension suf with
  | some cat => (some ⟨100, "extension", cat, suf⟩, rememberExtension cache suf cat)
  | none => (none, cache)

/-- `_classify_by_extension` on an already normalised suffix. -/
def extensionStep (rules : Rules) (suf : String) (cache : ExtCache) :
    Option Decision × ExtCache :=
  if suf = "" then (none, cache)
  else
    match (extCacheGet cache suf).1 with
    | some cached =>
      if cached ≠ "" then (some ⟨100, "extension", cached, suf⟩, (extCacheGet cache suf).2)
      else extLookup rules (extCacheGet cache suf).2 suf
    | none => extLookup rules (extCacheGet cache suf).2 suf

def classifyByExtension (rules : Rules) (cand : ClassCand) (cache : ExtCache) :
    Option Decision × ExtCache :=
  extensionStep rules (normaliseSuffix (sufOf cand.path.name)) cache

def isAlnumLower (c : Char) : Bool :=
  (decide ('a' ≤ c) && decide (c ≤ 'z')) || (decide ('0' ≤ c) && decide (c ≤ '9'))

/-- Maximal runs of `[a-z0-9]` characters (`re.split(r"[^a-z0-9]+", name)`
with empties removed), accumulating the current run reversed. -/
def tokenRuns : List Char → List Char → List (List Char)
  | [], cur => if cur.isEmpty then [] else [cur.reverse]
  | c :: rest, cur =>
    if isAlnumLower c then tokenRuns rest (c :: cur)
    else if cur.isEmpty then tokenRuns rest []
    else cur.reverse :: tokenRuns rest []

/-- `_tokenise` of the (already lowercased) name. -/
def tokensOf (name : String) : List String :=
  (tokenRuns name.data []).map (fun l => l.asString)

/-- `_classify_by_keyword`: exact-token match first, then regex search
over patterns that were not exact tokens; invalid patterns are treated as
non-matching by the oracle. -/
def classifyByKeyword (o : Oracles) (rules : Rules) (cand : ClassCand) : Option Decision :=
  let name := strLower cand.path.name
  let keywords := tokensOf name
  match keywords.find? (fun kw => (alistGet rules.keyword kw).isSome) with
  | some kw =>
    match alistGet rules.keyword kw with
    | some cat => some ⟨80, "keyword", cat, kw⟩
    | none => none
  | none =>
    (rules.keyword.find? (fun pr =>
        !(decide (pr.1 ∈ keywords)) && o.regexSearch pr.1 name)).map
      (fun pr => ⟨80, "keyword", pr.2, pr.1⟩)

def sizeRuleMatches (size : Nat) (r : SizeRule) : Bool :=
  match r.category with
  | none => false
  | some c =>
    if c = "" then false
    else
      (match r.min with | none => true | some m => decide (m ≤ size))
      && (match r.max with | none => true | some m => decide (size ≤ m))

/-- `_classify_by_size`: first satisfying rule wins. -/
def classifyBySize (o : Oracles) (rules : Rules) (cand : ClassCand) : Option Decision :=
  (rules.sizeRules.find? (sizeRuleMatches cand.size)).map
    (fun r => ⟨50, "size",
      (match r.category with | some c => c | none => ""), o.jsonDumps r⟩)

/-- `pattern.rstrip("*")`. -/
def rstripStar (s : String) : String :=
  (s.data.reverse.dropWhile (fun c => decide (c = '*'))).reverse.asString

/-- `_classify_by_mime`: exact match or wildcard-stripped whole-string
match of the guessed MIME type. -/
def classifyByMime (o : Oracles) (rules : Rules) (cand : ClassCand) : Option Decision :=
  match o.guessMime (pathString cand.path) with
  | none => none
  | some mimeType =>
    (rules.mime.find? (fun pr =>
        decide (mimeType = pr.1) || strStarts mimeType (rstripStar pr.1))).map
      (fun pr => ⟨60, "mime", pr.2, mimeType⟩)

/-- `_classify_by_magic`: decoded signature bytes compared as a whole
against the start of the 32-byte header; empty or invalid patterns never
match. -/
def classifyByMagic (o : Oracles) (rules : Rules) (cand : ClassCand) : Option Decision :=
  match cand.header with
  | none => none
  | some header =>
    (rules.magic.find? (fun pr =>
        match o.magicBytes pr.1 with
        | some needle => !needle.isEmpty && listStarts needle header
        | none => false)).map
      (fun pr => ⟨70, "magic", pr.2, pr.1⟩)

/-- Is the candidate decision strictly better (earlier under the stable
sort key `(-weight, source priority)`)? -/
def betterDecision (cur cand : Decision) : Bool :=
  decide (cur.weight < cand.weight)
  || (decide (cand.weight = cur.weight)
      && decide (sourcePriority cand.source < sourcePriority cur.source))

/-- `decisions.sort(key=(-weight, priority))[0]` with a stable sort: the
first decision minimal under the key, computed as a fold that keeps the
incumbent unless the candidate is strictly better. -/
def bestDecision : List Decision → Option Decision :=
  List.foldl (fun acc d =>
    match acc with
    | none => some d
    | some a => if betterDecision a d then some d else some a) none

def classifyDecisions (o : Oracles) (rules : Rules) (cand : ClassCand)
    (cache : ExtCache) : List Decision :=
  (classifyByExtension rules cand cache).1.toList
    ++ (classifyByKeyword o rules cand).toList
    ++ (classifyBySize o rules cand).toList
    ++ (classifyByMime o rules cand).toList
    ++ (classifyByMagic o rules cand).toList

def classifyResult (o : Oracles) (rules : Rules) (cand : ClassCand)
    (cache : ExtCache) : CResult :=
  match bestDecision (classifyDecisions o rules cand cache) with
  | some best =>
    ⟨best.category, min ((best.weight : ℚ) / 100) 1, best.source ++ ":" ++ best.rationale⟩
  | none => ⟨rules.defaultCategory, 0, "no-match"⟩

/-- `ClassificationEngine.classify`: the observable result together with
the extension cache after the call. -/
def classify (o : Oracles) (rules : Rules) (cand : ClassCand) (cache : ExtCache) :
    CResult × ExtCache :=
  (classifyResult o rules cand cache, (classifyByExtension rules cand cache).2)

/-- A sequence of earlier `classify` calls, threading the cache. -/
def classifySeq (o : Oracles) (rules : Rules) : List ClassCand → ExtCache → ExtCache
  | [], cache => cache
  | c :: rest, cache => classifySeq o rules rest (classify o rules c cache).2

/-- Cache faithfulness: every cached binding agrees with the extension
rule table (the only source the cache is ever filled from). -/
def cacheFaithful (rules : Rules) (cache : ExtCache) : Prop :=
  ∀ kv ∈ cache, alistGet rules.extension kv.1 = some kv.2

/-! ## Lemmas and claim theorems -/

lemma dropWhile_head_not {α : Type} (p : α → Bool) :
    ∀ (l : List α) (c : α) (t : List α), l.dropWhile p = c :: t → p c = false := by
  intro l
  induction l with
  | nil => intro c t h; simp [List.dropWhile] at h
  | cons x xs ih =>
    intro c t h
    rw [List.dropWhile_cons] at h
    by_cases hx : p x
    · rw [if_pos hx] at h
      exact ih c t h
    · rw [if_neg hx] at h
      injection h with h1 _
      rw [← h1]
      exact Bool.of_not_eq_true hx

/-- `pathlib` guarantees `stem + suffix == name`; our embedding preserves it. -/
lemma stem_append_suf (name : String) : stemOf name ++ sufOf name = name := by
  unfold stemOf sufOf sufSplit
  by_cases hcond : name.data.reverse.takeWhile (fun c => decide (c ≠ '.')) ≠ [] ∧
      2 ≤ (name.data.reverse.dropWhile (fun c => decide (c ≠ '.'))).length
  · rw [if_pos hcond]
    apply String.ext
    rw [String.data_append]
    obtain ⟨ha, hb⟩ := hcond
    cases hd : name.data.reverse.dropWhile (fun c => decide (c ≠ '.')) with
    | nil => rw [hd] at hb; simp at hb
    | cons c t =>
      have hc : c = '.' := by
        have := dropWhile_head_not _ _ c t hd
        simpa using this
      have hrev : name.data.reverse
          = name.data.reverse.takeWhile (fun c => decide (c ≠ '.')) ++ ('.' :: t) := by
        conv_lhs => rw [← List.takeWhile_append_dropWhile
          (p := fun c => decide (c ≠ '.')) (l := name.data.reverse)]
        rw [hd, hc]
      have h2 := congrArg List.reverse hrev
      rw [List.reverse_reverse, List.reverse_append, List.reverse_cons, List.append_assoc,
        List.singleton_append] at h2
      show t.reverse ++ '.' ::
        (name.data.reverse.takeWhile (fun c => decide (c ≠ '.'))).reverse = name.data
      exact h2.symm
  · rw [if_neg hcond]
    apply String.ext
    rw [String.data_append]
    show name.data ++ [] = name.data
    exact List.append_nil _

lemma toDigitsCore_eq_natChars :
    ∀ (fuel n : Nat) (ds : List Char), n < fuel →
      Nat.toDigitsCore 10 fuel n ds = natChars n ++ ds := by
  intro fuel
  induction fuel with
  | zero => intro n ds h; omega
  | succ f ih =>
    intro n ds _h
    by_cases h10 : n / 10 = 0
    · have hlt : n < 10 := by omega
      rw [Nat.toDigitsCore]
      simp only [h10, if_true]
      rw [natChars]
      simp [hlt, Nat.mod_eq_of_lt hlt]
    · have hge : ¬ n < 10 := by omega
      rw [Nat.toDigitsCore]
      simp only [h10, if_false]
      rw [ih (n / 10) _ (by omega)]
      conv_rhs => rw [natChars]
      simp [hge]

lemma digitChar_val (d : Nat) (h : d < 10) : (Nat.digitChar d).toNat - 48 = d := by
  interval_cases d <;> rfl

lemma foldl_decode_natChars (n : Nat) :
    ∀ acc, List.foldl decodeStep acc (natChars n) = acc * 10 ^ (natChars n).length + n := by
  induction n using Nat.strong_induction_on with
  | _ n ih =>
    intro acc
    by_cases h : n < 10
    · rw [natChars]
      simp [h, decodeStep, digitChar_val n h]
    · rw [natChars]
      simp only [h, dite_false]
      rw [List.foldl_append, ih (n / 10) (Nat.div_lt_self (by omega) (by omega))]
      simp only [List.foldl_cons, List.foldl_nil, decodeStep, List.length_append,
        List.length_singleton]
      rw [digitChar_val (n % 10) (by omega), pow_succ]
      have hk : (10 : Nat) ^ (natChars (n / 10)).length = 10 ^ (natChars (n / 10)).length := rfl
      generalize (10 : Nat) ^ (natChars (n / 10)).length = k at *
      have hnd : n / 10 * 10 + n % 10 = n := by omega
      calc (acc * k + n / 10) * 10 + n % 10
          = acc * (k * 10) + (n / 10 * 10 + n % 10) := by ring
        _ = acc * (k * 10) + n := by rw [hnd]

lemma natChars_injective : Function.Injective natChars := by
  intro a b h
  have ha := foldl_decode_natChars a 0
  have hb := foldl_decode_natChars b 0
  rw [h] at ha
  rw [ha] at hb
  omega

lemma natRepr_injective : Function.Injective Nat.repr := by
  intro a b h
  unfold Nat.repr Nat.toDigits at h
  rw [toDigitsCore_eq_natChars (a + 1) a [] (by omega),
      toDigitsCore_eq_natChars (b + 1) b [] (by omega)] at h
  simp only [List.append_nil, List.asString] at h
  exact natChars_injective (by injection h)

lemma conflictName_inj (s e : String) {a b : Nat}
    (h : conflictName s a e = conflictName s b e) : a = b := by
  unfold conflictName at h
  have hd := congrArg String.data h
  simp only [String.data_append, List.append_assoc] at hd
  have h1 := List.append_cancel_left (List.append_cancel_left hd)
  have h2 : (Nat.repr a).data = (Nat.repr b).data := List.append_cancel_right h1
  exact natRepr_injective (String.ext h2)

lemma mkRenamed_inj (dest : FPath) : Function.Injective (mkRenamed dest) := by
  intro a b h
  unfold mkRenamed FPath.withName at h
  have : conflictName (stemOf dest.name) a (sufOf dest.name)
      = conflictName (stemOf dest.name) b (sufOf dest.name) := congrArg FPath.name h
  exact conflictName_inj _ _ this

lemma renameLoop_free (disk : List FPath) (dest : FPath) :
    ∀ (fuel n : Nat) (cand : FPath),
      (cand ∉ disk ∨ ∃ k, k < fuel ∧ mkRenamed dest (n + k) ∉ disk) →
      renameLoop disk dest fuel n cand ∉ disk := by
  intro fuel
  induction fuel with
  | zero =>
    intro n cand h
    rcases h with h | ⟨k, hk, _⟩
    · exact h
    · omega
  | succ f ih =>
    intro n cand h
    rw [renameLoop]
    by_cases hc : cand ∈ disk
    · rw [if_pos hc]
      apply ih
      rcases h with h | ⟨k, hk, hfree⟩
      · exact absurd hc h
      · cases k with
        | zero => exact Or.inl (by simpa using hfree)
        | succ k' =>
          refine Or.inr ⟨k', by omega, ?_⟩
          have : n + 1 + k' = n + (k' + 1) := by omega
          rw [this]
          exact hfree
    · rw [if_neg hc]
      exact hc

lemma exists_free_conflict_name (disk : List FPath) (dest : FPath) :
    ∃ k, k < disk.length + 1 ∧ mkRenamed dest (1 + k) ∉ disk := by
  by_contra hall
  push_neg at hall
  have hinj : Function.Injective (fun k : Nat => mkRenamed dest (1 + k)) := by
    intro x y hxy
    have := mkRenamed_inj dest hxy
    omega
  have hsub : (Finset.range (disk.length + 1)).image (fun k => mkRenamed dest (1 + k))
      ⊆ disk.toFinset := by
    intro p hp
    rcases Finset.mem_image.mp hp with ⟨k, hk, rfl⟩
    exact List.mem_toFinset.mpr (hall k (Finset.mem_range.mp hk))
  have hcard := Finset.card_le_card hsub
  rw [Finset.card_image_of_injective _ hinj, Finset.card_range] at hcard
  have := List.toFinset_card_le disk
  omega

theorem handleConflict_rename_not_on_disk (disk : List FPath) (dest : FPath) :
    (handleConflict disk .rename dest).1 ∉ disk := by
  by_cases hd : dest ∈ disk
  · have heq : handleConflict disk .rename dest
        = (renameLoop disk dest (disk.length + 1) 1 dest, true, false) := by
      unfold handleConflict
      rw [if_pos hd]
    rw [heq]
    apply renameLoop_free
    rcases exists_free_conflict_name disk dest with ⟨k, hk, hfree⟩
    exact Or.inr ⟨k, hk, hfree⟩
  · have heq : handleConflict disk .rename dest = (dest, false, false) := by
      unfold handleConflict
      rw [if_neg hd]
    rw [heq]
    exact hd

/-- C1 counterexample: with the default `rename` strategy, two candidates
that resolve to the same destination `dest/docs/note.txt`, which does not
exist on disk, are both planned at that very path - the plan contains two
items with identical destinations, refuting the claimed uniqueness (and
the claimed N distinct final paths for N colliding candidates). -/
theorem c1_counterexample :
    planDests [] ConflictStrategy.rename
        [⟨["dest", "docs"], "note.txt"⟩, ⟨["dest", "docs"], "note.txt"⟩]
      = [⟨["dest", "docs"], "note.txt"⟩, ⟨["dest", "docs"], "note.txt"⟩]
    ∧ ¬ (planDests [] ConflictStrategy.rename
        [⟨["dest", "docs"], "note.txt"⟩, ⟨["dest", "docs"], "note.txt"⟩]).Nodup := by
  constructor
  · rfl
  · decide

/-- C1 amended: under the default `rename` strategy every planned
destination is free on disk (never collides with a pre-existing file);
but already-planned destinations of the same run are not consulted, so
distinct plan items may share a destination (see `c1_counterexample`). -/
theorem c1_amended (disk : List FPath) (reqs : List FPath) :
    ∀ p ∈ planDests disk ConflictStrategy.rename reqs, p ∉ disk := by
  intro p hp
  rcases List.mem_filterMap.mp hp with ⟨d, _, hd⟩
  simp only at hd
  by_cases hs : (handleConflict disk .rename d).2.2
  · simp [hs] at hd
  · simp [hs] at hd
    rw [← hd]
    exact handleConflict_rename_not_on_disk disk d

/-- Witness for `c1_amended`: a single candidate colliding with the
pre-existing `d/a.txt` is planned at `d/a (1).txt`, which is not on disk. -/
theorem c1_amended_witness :
    (⟨["d"], "a (1).txt"⟩ : FPath) ∈
        planDests [⟨["d"], "a.txt"⟩] ConflictStrategy.rename [⟨["d"], "a.txt"⟩]
    ∧ (⟨["d"], "a (1).txt"⟩ : FPath) ∉ [(⟨["d"], "a.txt"⟩ : FPath)] :=
  ⟨by decide, c1_amended [⟨["d"], "a.txt"⟩] [⟨["d"], "a.txt"⟩] _ (by decide)⟩

/-! ## Association-list lemmas -/

lemma alistGet_set_eq {κ α : Type} [DecidableEq κ] (l : List (κ × α)) (k : κ) (v : α) :
    alistGet (alistSet l k v) k = some v := by
  induction l with
  | nil => simp [alistSet, alistGet]
  | cons e rest ih =>
    obtain ⟨k', v'⟩ := e
    by_cases h : k' = k
    · simp [alistSet, h, alistGet]
    · simp only [alistSet, if_neg h]
      simp only [alistGet, if_neg h]
      exact ih

lemma alistGet_set_ne {κ α : Type} [DecidableEq κ] (l : List (κ × α)) (k q : κ) (v : α)
    (h : k ≠ q) : alistGet (alistSet l k v) q = alistGet l q := by
  induction l with
  | nil => simp [alistSet, alistGet, h]
  | cons e rest ih =>
    obtain ⟨k', v'⟩ := e
    by_cases hk : k' = k
    · subst hk
      simp [alistSet, alistGet, h]
    · simp only [alistSet, if_neg hk, alistGet]
      by_cases hq : k' = q
      · simp [hq]
      · simp [hq, ih]

lemma alistGet_drop_self {κ α : Type} [DecidableEq κ] (l : List (κ × α)) (k : κ) :
    alistGet (alistDrop l k) k = none := by
  induction l with
  | nil => rfl
  | cons e rest ih =>
    obtain ⟨k', v'⟩ := e
    rw [alistDrop]
    by_cases h : k' = k
    · rw [if_pos h]
      exact ih
    · rw [if_neg h, alistGet, if_neg h]
      exact ih

lemma alistGet_drop_ne {κ α : Type} [DecidableEq κ] (l : List (κ × α)) (k q : κ)
    (h : q ≠ k) : alistGet (alistDrop l k) q = alistGet l q := by
  induction l with
  | nil => rfl
  | cons e rest ih =>
    obtain ⟨k', v'⟩ := e
    rw [alistDrop]
    by_cases hk : k' = k
    · rw [if_pos hk]
      rw [ih, alistGet]
      have hq : ¬ k' = q := fun hx => h (by rw [← hx, hk])
      rw [if_neg hq]
    · rw [if_neg hk, alistGet, alistGet]
      by_cases hq : k' = q
      · rw [if_pos hq, if_pos hq]
      · rw [if_neg hq, if_neg hq]
        exact ih

lemma tempPath_name (dst : FPath) : (tempPath dst).name = dst.name ++ ".ao_tmp" := by
  unfold tempPath FPath.withName
  show stemOf dst.name ++ (sufOf dst.name ++ ".ao_tmp") = dst.name ++ ".ao_tmp"
  rw [← String.append_assoc, stem_append_suf]

lemma tempPath_ne (dst : FPath) : tempPath dst ≠ dst := by
  intro h
  have hn := congrArg FPath.name h
  rw [tempPath_name] at hn
  have hdata := congrArg String.data hn
  rw [String.data_append] at hdata
  have hlen := congrArg List.length hdata
  rw [List.length_append] at hlen
  have h7 : (".ao_tmp" : String).data.length = 7 := rfl
  omega

lemma listStarts_self_append {α : Type} [DecidableEq α] :
    ∀ (l m : List α), listStarts l (l ++ m) = true := by
  intro l
  induction l with
  | nil => intro m; rfl
  | cons a as ih => intro m; simp [listStarts, ih]

lemma strEnds_of_append (x t : String) : strEnds (x ++ t) t = true := by
  unfold strEnds
  rw [String.data_append, List.reverse_append]
  exact listStarts_self_append _ _

lemma ne_tempPath_of_not_ends (src : FPath) (h : strEnds src.name ".ao_tmp" = false) :
    ∀ d : FPath, src ≠ tempPath d := by
  intro d hEq
  have hn : src.name = (tempPath d).name := congrArg FPath.name hEq
  rw [tempPath_name] at hn
  rw [hn, strEnds_of_append] at h
  cases h

lemma runItems_no_write (strat : ConflictStrategy) (hash corrupt : List Nat → List Nat) :
    ∀ (items : List PlanItem) (fs : FS) (i : Nat),
      ∀ e ∈ (runItems strat hash corrupt fs i items).trace, isWriteEvent e = false := by
  intro items
  induction items with
  | nil => intro fs i e he; simp [runItems] at he
  | cons item rest ih =>
    intro fs i e he
    rw [runItems] at he
    by_cases hf : item.flags ≠ [] ∧ "conflict" ∈ item.flags ∧ strat = .skip
    · rw [if_pos hf] at he
      simp only [List.mem_cons] at he
      rcases he with rfl | he
      · rfl
      · exact ih _ _ e he
    · rw [if_neg hf] at he
      rcases hE : executeItem strat hash corrupt fs item with ⟨fs', outcome, digest⟩
      rw [hE] at he
      cases outcome
      all_goals
        simp only [List.mem_cons] at he
        rcases he with rfl | he
      all_goals first
        | rfl
        | exact ih _ _ e he

lemma runItems_steps (strat : ConflictStrategy) (hash corrupt : List Nat → List Nat) :
    ∀ (items : List PlanItem) (fs : FS) (i : Nat),
      (runItems strat hash corrupt fs i items).steps
        = (runItems strat hash corrupt fs i items).perItem.filterMap
            (fun e => match e.2.1 with | ItemOutcome.success s => some s | _ => none) := by
  intro items
  induction items with
  | nil => intro fs i; rfl
  | cons item rest ih =>
    intro fs i
    rw [runItems]
    by_cases hf : item.flags ≠ [] ∧ "conflict" ∈ item.flags ∧ strat = .skip
    · rw [if_pos hf]
      simp only [List.filterMap_cons]
      exact ih _ _
    · rw [if_neg hf]
      rcases hE : executeItem strat hash corrupt fs item with ⟨fs', outcome, digest⟩
      cases outcome
      all_goals
        simp only [List.filterMap_cons]
      all_goals
        first
          | exact ih _ _
          | exact congrArg _ (ih _ _)

/-- C3 counterexample: a two-item plan executed successfully yields the
trace item-0, item-1, rollback-write - the single rollback-log write
happens after the loop, so no write separates the two items and the
claimed per-item durable logging is false on this input. -/
theorem c3_counterexample :
    (executePlan ConflictStrategy.rename (fun c => c) (fun c => c)
        [(⟨["s"], "a.txt"⟩, [1]), (⟨["s"], "b.txt"⟩, [2])]
        [⟨⟨["s"], "a.txt"⟩, ⟨["dst"], "a.txt"⟩, "rename", true, 1, false, []⟩,
         ⟨⟨["s"], "b.txt"⟩, ⟨["dst"], "b.txt"⟩, "rename", true, 1, false, []⟩]).trace
      = [TraceEvent.itemDone 0
            (.success ⟨⟨["dst"], "a.txt"⟩, ⟨["s"], "a.txt"⟩, "rename"⟩),
         TraceEvent.itemDone 1
            (.success ⟨⟨["dst"], "b.txt"⟩, ⟨["s"], "b.txt"⟩, "rename"⟩),
         TraceEvent.rollbackWritten
            [⟨⟨["dst"], "a.txt"⟩, ⟨["s"], "a.txt"⟩, "rename"⟩,
             ⟨⟨["dst"], "b.txt"⟩, ⟨["s"], "b.txt"⟩, "rename"⟩]]
    ∧ perItemDurable (executePlan ConflictStrategy.rename (fun c => c) (fun c => c)
        [(⟨["s"], "a.txt"⟩, [1]), (⟨["s"], "b.txt"⟩, [2])]
        [⟨⟨["s"], "a.txt"⟩, ⟨["dst"], "a.txt"⟩, "rename", true, 1, false, []⟩,
         ⟨⟨["s"], "b.txt"⟩, ⟨["dst"], "b.txt"⟩, "rename", true, 1, false, []⟩]).trace
      = false := by
  constructor
  · rfl
  · rfl

/-- C3 amended: the rollback log is written durably exactly once, after
the whole loop (not per item): the only `rollbackWritten` event is the
final trace event, and it contains one step for every item that completed
(succeeded) in the run, in plan order.  An interruption mid-run therefore
leaves no rollback log at all. -/
theorem c3_amended (strat : ConflictStrategy) (hash corrupt : List Nat → List Nat)
    (fs : FS) (items : List PlanItem) :
    (executePlan strat hash corrupt fs items).trace.filter isWriteEvent
        = [TraceEvent.rollbackWritten (executePlan strat hash corrupt fs items).steps]
    ∧ (executePlan strat hash corrupt fs items).trace.getLast?
        = some (TraceEvent.rollbackWritten (executePlan strat hash corrupt fs items).steps)
    ∧ (executePlan strat hash corrupt fs items).steps
        = (executePlan strat hash corrupt fs items).perItem.filterMap
            (fun e => match e.2.1 with | ItemOutcome.success s => some s | _ => none) := by
  refine ⟨?_, ?_, ?_⟩
  · show ((runItems strat hash corrupt fs 0 items).trace
        ++ [TraceEvent.rollbackWritten (runItems strat hash corrupt fs 0 items).steps]).filter
          isWriteEvent = _
    rw [List.filter_append]
    have h1 : (runItems strat hash corrupt fs 0 items).trace.filter isWriteEvent = [] := by
      rw [List.filter_eq_nil_iff]
      intro e he
      rw [runItems_no_write strat hash corrupt items fs 0 e he]
      exact Bool.false_ne_true
    rw [h1]
    rfl
  · show ((runItems strat hash corrupt fs 0 items).trace
        ++ [TraceEvent.rollbackWritten (runItems strat hash corrupt fs 0 items).steps]).getLast?
          = _
    rw [List.getLast?_concat]
    rfl
  · exact runItems_steps strat hash corrupt items fs 0

/-- C2: for a `copy` item (source present with `content`, destination
free), if the source-stream digest differs from the independently computed
digest of the temp file then the temp file is deleted, the item fails
(counted in `failed`, never `succeeded`), and the source is untouched;
if the digests match, the temp file is atomically published to the final
destination, the digest is recorded, and only then is the source deleted. -/
theorem c2_copy_verification (strat : ConflictStrategy)
    (hash corrupt : List Nat → List Nat) (fs : FS) (item : PlanItem)
    (content : List Nat)
    (hop : item.operation = "copy")
    (hsrc : alistGet fs item.source = some content)
    (hdst : alistGet fs item.destination = none)
    (hst : item.source ≠ tempPath item.destination)
    (hsd : item.source ≠ item.destination)
    (hnf : "conflict" ∉ item.flags) :
    (hash content ≠ hash (corrupt content) →
      executeItem strat hash corrupt fs item
          = (alistDrop (alistSet fs (tempPath item.destination) (corrupt content))
               (tempPath item.destination),
             ItemOutcome.error "SHA-256 mismatch after copy", none)
        ∧ alistGet (executeItem strat hash corrupt fs item).1 item.source = some content
        ∧ alistGet (executeItem strat hash corrupt fs item).1 (tempPath item.destination) = none
        ∧ alistGet (executeItem strat hash corrupt fs item).1 item.destination = none
        ∧ (executePlan strat hash corrupt fs [item]).failed = 1
        ∧ (executePlan strat hash corrupt fs [item]).succeeded = 0)
    ∧ (hash content = hash (corrupt content) →
      (executeItem strat hash corrupt fs item).2.1
          = ItemOutcome.success ⟨item.destination, item.source, "restore"⟩
        ∧ (executeItem strat hash corrupt fs item).2.2 = some (hash content)
        ∧ alistGet (executeItem strat hash corrupt fs item).1 item.destination
            = some (corrupt content)
        ∧ alistGet (executeItem strat hash corrupt fs item).1 item.source = none
        ∧ alistGet (executeItem strat hash corrupt fs item).1 (tempPath item.destination)
            = none) := by
  have hres : resolveExecDest strat fs item.destination = .ok item.destination := by
    unfold resolveExecDest
    rw [hdst]
    rfl
  have hner : ¬ item.operation = "rename" := by rw [hop]; decide
  constructor
  · intro hne
    have hcv : copyWithVerification hash corrupt fs item.source item.destination
        = (alistDrop (alistSet fs (tempPath item.destination) (corrupt content))
             (tempPath item.destination), .error "SHA-256 mismatch after copy") := by
      unfold copyWithVerification
      rw [hsrc]
      simp only
      rw [if_neg hne]
    have hexec : executeItem strat hash corrupt fs item
        = (alistDrop (alistSet fs (tempPath item.destination) (corrupt content))
             (tempPath item.destination),
           ItemOutcome.error "SHA-256 mismatch after copy", none) := by
      unfold executeItem
      rw [hres]
      simp only
      rw [if_neg hner, if_pos hop, hcv]
    refine ⟨hexec, ?_, ?_, ?_, ?_, ?_⟩
    · rw [hexec]
      show alistGet (alistDrop (alistSet fs (tempPath item.destination) (corrupt content))
        (tempPath item.destination)) item.source = some content
      rw [alistGet_drop_ne _ _ _ hst, alistGet_set_ne _ _ _ _ (Ne.symm hst)]
      exact hsrc
    · rw [hexec]
      show alistGet (alistDrop (alistSet fs (tempPath item.destination) (corrupt content))
        (tempPath item.destination)) (tempPath item.destination) = none
      exact alistGet_drop_self _ _
    · rw [hexec]
      show alistGet (alistDrop (alistSet fs (tempPath item.destination) (corrupt content))
        (tempPath item.destination)) item.destination = none
      rw [alistGet_drop_ne _ _ _ (Ne.symm (tempPath_ne item.destination)),
          alistGet_set_ne _ _ _ _ (tempPath_ne item.destination)]
      exact hdst
    · show (runItems strat hash corrupt fs 0 [item]).failed = 1
      rw [runItems]
      rw [if_neg (fun hc => hnf hc.2.1)]
      rw [hexec]
      rfl
    · show (runItems strat hash corrupt fs 0 [item]).succeeded = 0
      rw [runItems]
      rw [if_neg (fun hc => hnf hc.2.1)]
      rw [hexec]
      rfl
  · intro heq
    have hcv : copyWithVerification hash corrupt fs item.source item.destination
        = (alistSet (alistDrop (alistSet fs (tempPath item.destination) (corrupt content))
              (tempPath item.destination)) item.destination (corrupt content),
           .ok (hash content)) := by
      unfold copyWithVerification
      rw [hsrc]
      simp only
      rw [if_pos heq]
    have hmid : alistGet (alistSet (alistDrop
          (alistSet fs (tempPath item.destination) (corrupt content))
          (tempPath item.destination)) item.destination (corrupt content)) item.source
        = some content := by
      rw [alistGet_set_ne _ _ _ _ (Ne.symm hsd), alistGet_drop_ne _ _ _ hst,
          alistGet_set_ne _ _ _ _ (Ne.symm hst)]
      exact hsrc
    have hexec : executeItem strat hash corrupt fs item
        = (alistDrop (alistSet (alistDrop
              (alistSet fs (tempPath item.destination) (corrupt content))
              (tempPath item.destination)) item.destination (corrupt content)) item.source,
           ItemOutcome.success ⟨item.destination, item.source, "restore"⟩,
           some (hash content)) := by
      unfold executeItem
      rw [hres]
      simp only
      rw [if_neg hner, if_pos hop, hcv]
      simp only
      rw [hmid]
    refine ⟨?_, ?_, ?_, ?_, ?_⟩
    · rw [hexec]
    · rw [hexec]
    · rw [hexec]
      show alistGet (alistDrop (alistSet (alistDrop
          (alistSet fs (tempPath item.destination) (corrupt content))
          (tempPath item.destination)) item.destination (corrupt content)) item.source)
        item.destination = some (corrupt content)
      rw [alistGet_drop_ne _ _ _ (Ne.symm hsd)]
      exact alistGet_set_eq _ _ _
    · rw [hexec]
      show alistGet (alistDrop (alistSet (alistDrop
          (alistSet fs (tempPath item.destination) (corrupt content))
          (tempPath item.destination)) item.destination (corrupt content)) item.source)
        item.source = none
      exact alistGet_drop_self _ _
    · rw [hexec]
      show alistGet (alistDrop (alistSet (alistDrop
          (alistSet fs (tempPath item.destination) (corrupt content))
          (tempPath item.destination)) item.destination (corrupt content)) item.source)
        (tempPath item.destination) = none
      rw [alistGet_drop_ne _ _ _ (Ne.symm hst),
          alistGet_set_ne _ _ _ _ (Ne.symm (tempPath_ne item.destination)),
          alistGet_drop_self]

/-- Witness for `c2_copy_verification`: a concrete corrupted copy - the
digest function is the identity on contents, the destination volume drops
the bytes to `[9]`, so the digests `[1, 2]` and `[9]` differ, the item
fails, the temp artifact is gone and the source still holds `[1, 2]`. -/
theorem c2_copy_verification_witness :
    ([1, 2] : List Nat) ≠ [9]
    ∧ executeItem ConflictStrategy.rename (fun c => c) (fun _ => [9])
        [(⟨["s"], "doc.txt"⟩, [1, 2])]
        ⟨⟨["s"], "doc.txt"⟩, ⟨["d"], "doc.txt"⟩, "copy", false, 2, false, []⟩
      = (alistDrop (alistSet [(⟨["s"], "doc.txt"⟩, [1, 2])]
           (tempPath ⟨["d"], "doc.txt"⟩) [9]) (tempPath ⟨["d"], "doc.txt"⟩),
         ItemOutcome.error "SHA-256 mismatch after copy", none) := by
  refine ⟨by decide, ?_⟩
  exact ((c2_copy_verification ConflictStrategy.rename (fun c => c) (fun _ => [9])
      [(⟨["s"], "doc.txt"⟩, [1, 2])]
      ⟨⟨["s"], "doc.txt"⟩, ⟨["d"], "doc.txt"⟩, "copy", false, 2, false, []⟩
      [1, 2] rfl (by decide) (by decide) (by decide) (by decide) (by decide)).1
      (by decide)).1

lemma copyWithVerification_ok (hash corrupt : List Nat → List Nat) (fs : FS)
    (src dst : FPath) (fs1 : FS) (digest : List Nat)
    (h : copyWithVerification hash corrupt fs src dst = (fs1, .ok digest)) :
    ∃ content, alistGet fs src = some content ∧ digest = hash content ∧
      fs1 = alistSet (alistDrop (alistSet fs (tempPath dst) (corrupt content))
              (tempPath dst)) dst (corrupt content) := by
  unfold copyWithVerification at h
  rcases hs : alistGet fs src with _ | content
  · rw [hs] at h
    have h2 := congrArg Prod.snd h
    simp at h2
  · rw [hs] at h
    simp only at h
    by_cases hh : hash content = hash (corrupt content)
    · rw [if_pos hh] at h
      have h1 := congrArg Prod.fst h
      have h2 := congrArg Prod.snd h
      simp only at h1 h2
      injection h2 with h2
      exact ⟨content, rfl, h2.symm, h1.symm⟩
    · rw [if_neg hh] at h
      have h2 := congrArg Prod.snd h
      simp at h2

lemma executeItem_digest_iff (strat : ConflictStrategy)
    (hash corrupt : List Nat → List Nat) (fs : FS) (item : PlanItem)
    (h : strEnds item.source.name ".ao_tmp" = false) :
    ((executeItem strat hash corrupt fs item).2.2).isSome = true
      ↔ (item.operation = "copy"
          ∧ ∃ s, (executeItem strat hash corrupt fs item).2.1 = ItemOutcome.success s) := by
  unfold executeItem
  rcases hres : resolveExecDest strat fs item.destination with m | destination
  · simp
  · simp only
    by_cases hr : item.operation = "rename"
    · rw [if_pos hr]
      rcases hg : alistGet fs item.source with _ | c
      · simp [hr]
      · simp [hr]
    · rw [if_neg hr]
      by_cases hcp : item.operation = "copy"
      · rw [if_pos hcp]
        rcases hcv : copyWithVerification hash corrupt fs item.source destination
          with ⟨fs1, res⟩
        rcases res with m | digest
        · simp
        · obtain ⟨content, hg, _, hfs1⟩ :=
            copyWithVerification_ok hash corrupt fs item.source destination fs1 digest hcv
          have hnt : item.source ≠ tempPath destination :=
            ne_tempPath_of_not_ends item.source h destination
          rcases hgv : alistGet fs1 item.source with _ | c
          · exfalso
            rw [hfs1] at hgv
            by_cases hsd : item.source = destination
            · rw [hsd, alistGet_set_eq] at hgv
              cases hgv
            · rw [alistGet_set_ne _ _ _ _ (fun hx => hsd hx.symm),
                  alistGet_drop_ne _ _ _ hnt,
                  alistGet_set_ne _ _ _ _ (Ne.symm hnt), hg] at hgv
              cases hgv
          · simp only
            rw [hgv]
            simp [hcp]
      · rw [if_neg hcp]
        simp [hcp]

lemma runItems_digest_iff (strat : ConflictStrategy)
    (hash corrupt : List Nat → List Nat) :
    ∀ (items : List PlanItem) (fs : FS) (i : Nat),
      (∀ it ∈ items, strEnds it.source.name ".ao_tmp" = false) →
      ∀ e ∈ (runItems strat hash corrupt fs i items).perItem,
        (e.2.2).isSome = true
          ↔ (e.1.operation = "copy" ∧ ∃ s, e.2.1 = ItemOutcome.success s) := by
  intro items
  induction items with
  | nil => intro fs i _ e he; simp [runItems] at he
  | cons item rest ih =>
    intro fs i hall e he
    rw [runItems] at he
    by_cases hf : item.flags ≠ [] ∧ "conflict" ∈ item.flags ∧ strat = .skip
    · rw [if_pos hf] at he
      simp only [List.mem_cons] at he
      rcases he with rfl | he
      · simp
      · exact ih _ _ (fun it hit => hall it (List.mem_cons_of_mem _ hit)) e he
    · rw [if_neg hf] at he
      have hItem := executeItem_digest_iff strat hash corrupt fs item
        (hall item (List.mem_cons_self _ _))
      rcases hE : executeItem strat hash corrupt fs item with ⟨fs', outcome, digest⟩
      rw [hE] at he hItem
      cases outcome
      all_goals
        simp only [List.mem_cons] at he
        rcases he with rfl | he
      all_goals
        first
          | simpa using hItem
          | exact ih _ _ (fun it hit => hall it (List.mem_cons_of_mem _ hit)) e he

/-- C8: after execution, an item's `hash_digest` is set if and only if its
operation was `copy` and the item succeeded (verified copy completed);
renames, skipped items and failed copies leave it unset.  The hypothesis
rules out the pathological source name ending in the temp-file marker
`.ao_tmp`, where the streamed temp file would overwrite the source itself. -/
theorem c8_hash_digest_iff (strat : ConflictStrategy)
    (hash corrupt : List Nat → List Nat) (fs : FS) (items : List PlanItem)
    (h : ∀ it ∈ items, strEnds it.source.name ".ao_tmp" = false) :
    ∀ e ∈ (executePlan strat hash corrupt fs items).perItem,
      (e.2.2).isSome = true
        ↔ (e.1.operation = "copy" ∧ ∃ s, e.2.1 = ItemOutcome.success s) := by
  intro e he
  exact runItems_digest_iff strat hash corrupt items fs 0 h e he

/-- Witness for `c8_hash_digest_iff`: one successful verified copy - the
digest is recorded and the outcome is success. -/
theorem c8_hash_digest_iff_witness :
    ((⟨⟨["s"], "a.bin"⟩, ⟨["d"], "a.bin"⟩, "copy", false, 2, false, []⟩,
      ItemOutcome.success ⟨⟨["d"], "a.bin"⟩, ⟨["s"], "a.bin"⟩, "restore"⟩,
      some [1, 2]) : PlanItem × ItemOutcome × Option (List Nat))
        ∈ (executePlan ConflictStrategy.rename (fun c => c) (fun c => c)
            [(⟨["s"], "a.bin"⟩, [1, 2])]
            [⟨⟨["s"], "a.bin"⟩, ⟨["d"], "a.bin"⟩, "copy", false, 2, false, []⟩]).perItem
    ∧ ((some [1, 2] : Option (List Nat)).isSome = true
        ↔ (("copy" : String) = "copy"
            ∧ ∃ s, ItemOutcome.success ⟨⟨["d"], "a.bin"⟩, ⟨["s"], "a.bin"⟩, "restore"⟩
                = ItemOutcome.success s)) := by
  constructor
  · decide
  · exact c8_hash_digest_iff ConflictStrategy.rename (fun c => c) (fun c => c)
      [(⟨["s"], "a.bin"⟩, [1, 2])]
      [⟨⟨["s"], "a.bin"⟩, ⟨["d"], "a.bin"⟩, "copy", false, 2, false, []⟩]
      (by decide)
      (⟨⟨["s"], "a.bin"⟩, ⟨["d"], "a.bin"⟩, "copy", false, 2, false, []⟩,
       ItemOutcome.success ⟨⟨["d"], "a.bin"⟩, ⟨["s"], "a.bin"⟩, "restore"⟩,
       some [1, 2])
      (by decide)

lemma runChecks_flags :
    ∀ (l : List (Bool × String × String)) (fl : List String) (r : Option String) (sk : Bool),
      (runChecks l fl r sk).1 = fl ++ (l.filter (fun t => t.1)).map (fun t => t.2.2) := by
  intro l
  induction l with
  | nil => intro fl r sk; simp [runChecks]
  | cons e rest ih =>
    intro fl r sk
    rw [runChecks]
    by_cases hc : e.1 = true
    · rw [if_pos hc, ih, List.filter_cons, if_pos hc]
      simp [List.append_assoc]
    · rw [if_neg hc, ih, List.filter_cons, if_neg hc]

lemma runChecks_reason_some :
    ∀ (l : List (Bool × String × String)) (fl : List String) (x : String) (sk : Bool),
      (runChecks l fl (some x) sk).2.1 = some x := by
  intro l
  induction l with
  | nil => intro fl x sk; rfl
  | cons e rest ih =>
    intro fl x sk
    rw [runChecks]
    by_cases hc : e.1 = true
    · rw [if_pos hc]
      exact ih _ _ _
    · rw [if_neg hc]
      exact ih _ _ _

lemma runChecks_reason_none :
    ∀ (l : List (Bool × String × String)) (fl : List String) (sk : Bool),
      (runChecks l fl none sk).2.1
        = ((l.find? (fun t => t.1)).map (fun t => t.2.1)) := by
  intro l
  induction l with
  | nil => intro fl sk; rfl
  | cons e rest ih =>
    intro fl sk
    rw [runChecks]
    by_cases hc : e.1 = true
    · rw [if_pos hc]
      rw [mergeReason]
      rw [runChecks_reason_some]
      rw [List.find?_cons_of_pos _ hc]
      rfl
    · rw [if_neg hc]
      rw [ih, List.find?_cons_of_neg _ (by simpa using hc)]

/-- C4: a whitelisted candidate short-circuits `SystemFilter.evaluate` -
the decision is exactly no-skip, no reason, flag set `whitelisted`,
regardless of every other rule. -/
theorem c4_whitelist_wins (cfg : SFConfig) (c : FileCandidate)
    (h : isWhitelisted cfg c.path = true) :
    evaluate cfg c = ⟨c, false, none, ["whitelisted"]⟩ := by
  unfold evaluate
  rw [if_pos h]

/-- Witness for `c4_whitelist_wins`: the candidate `.git/keep.txt` matches
the system-exclude rule (`.git`), the hidden rule, yet its whitelisted
token `keep` makes evaluate return no-skip with flags `[whitelisted]`. -/
theorem c4_whitelist_wins_witness :
    isSystemFile ⟨[".git"], "keep.txt"⟩ = true
    ∧ isHidden ⟨[".git"], "keep.txt"⟩ = true
    ∧ isWhitelisted (mkSFConfig ["keep"] [] 255 true true true) ⟨[".git"], "keep.txt"⟩ = true
    ∧ evaluate (mkSFConfig ["keep"] [] 255 true true true) ⟨⟨[".git"], "keep.txt"⟩, 4⟩
        = ⟨⟨⟨[".git"], "keep.txt"⟩, 4⟩, false, none, ["whitelisted"]⟩ :=
  ⟨by decide, by decide, by decide,
   c4_whitelist_wins (mkSFConfig ["keep"] [] 255 true true true)
     ⟨⟨[".git"], "keep.txt"⟩, 4⟩ (by decide)⟩

/-- C5: for a non-whitelisted candidate, `reason` is the token of the
first rule in the fixed order that matched and triggered a skip, while
`flags` collects the flag of every matching rule - including rules
matching after the first skip and the flag-only sensitive rule. -/
theorem c5_first_reason_all_flags (cfg : SFConfig) (c : FileCandidate)
    (h : isWhitelisted cfg c.path = false) :
    (evaluate cfg c).reason = firstSkipReasonSpec cfg c
    ∧ (evaluate cfg c).flags = allFlagsSpec cfg c := by
  unfold evaluate
  rw [if_neg (by rw [h]; exact Bool.false_ne_true)]
  constructor
  · show (if containsSensitiveKeyword cfg c.path && cfg.sensitiveSkip then
        (match (runChecks (checksFor cfg c) [] none false).2.1 with
          | none => some "sensitive_keyword" | some x => some x)
      else (runChecks (checksFor cfg c) [] none false).2.1)
      = firstSkipReasonSpec cfg c
    rw [runChecks_reason_none]
    unfold firstSkipReasonSpec
    cases hf : (checksFor cfg c).find? (fun t => t.1) with
    | none =>
      simp only [Option.map_none']
    | some t =>
      simp only [Option.map_some']
      exact ite_self _
  · show (if containsSensitiveKeyword cfg c.path then
        (runChecks (checksFor cfg c) [] none false).1 ++ ["sensitive"]
      else (runChecks (checksFor cfg c) [] none false).1)
      = allFlagsSpec cfg c
    rw [runChecks_flags]
    unfold allFlagsSpec
    by_cases hs : containsSensitiveKeyword cfg c.path = true
    · rw [if_pos hs, if_pos hs]
      simp
    · rw [if_neg hs, if_neg hs]
      simp

/-- Witness for `c5_first_reason_all_flags`: `.git/secret.tmp`, empty,
with flag-only sensitive handling: the hidden rule is the first skip
(cloud-placeholder does not match), and the flags collect hidden, system,
temporary, empty and the flag-only sensitive match. -/
theorem c5_first_reason_all_flags_witness :
    isWhitelisted (mkSFConfig [] [] 255 true true false) ⟨[".git"], "secret.tmp"⟩ = false
    ∧ (evaluate (mkSFConfig [] [] 255 true true false) ⟨⟨[".git"], "secret.tmp"⟩, 0⟩).reason
        = some "hidden"
    ∧ (evaluate (mkSFConfig [] [] 255 true true false) ⟨⟨[".git"], "secret.tmp"⟩, 0⟩).flags
        = ["hidden", "system", "temporary", "empty", "sensitive"]
    ∧ (evaluate (mkSFConfig [] [] 255 true true false) ⟨⟨[".git"], "secret.tmp"⟩, 0⟩).reason
        = firstSkipReasonSpec (mkSFConfig [] [] 255 true true false)
            ⟨⟨[".git"], "secret.tmp"⟩, 0⟩ :=
  ⟨by decide, by decide, by decide,
   (c5_first_reason_all_flags (mkSFConfig [] [] 255 true true false)
     ⟨⟨[".git"], "secret.tmp"⟩, 0⟩ (by decide)).1⟩

lemma alistGet_mem {κ α : Type} [DecidableEq κ] :
    ∀ (l : List (κ × α)) (k : κ) (v : α), alistGet l k = some v → (k, v) ∈ l := by
  intro l
  induction l with
  | nil => intro k v h; cases h
  | cons e rest ih =>
    intro k v h
    obtain ⟨k', v'⟩ := e
    rw [alistGet] at h
    by_cases hk : k' = k
    · rw [if_pos hk] at h
      injection h with h
      rw [hk, h]
      exact List.mem_cons_self _ _
    · rw [if_neg hk] at h
      exact List.mem_cons_of_mem _ (ih k v h)

lemma mem_keys_alistSet {κ α : Type} [DecidableEq κ] :
    ∀ (l : List (κ × α)) (k : κ) (v : α) (x : κ),
      x ∈ (alistSet l k v).map Prod.fst → x ∈ l.map Prod.fst ∨ x = k := by
  intro l
  induction l with
  | nil =>
    intro k v x hx
    simp [alistSet] at hx
    exact Or.inr hx
  | cons e rest ih =>
    intro k v x hx
    obtain ⟨k', v'⟩ := e
    rw [alistSet] at hx
    by_cases h : k' = k
    · rw [if_pos h] at hx
      simp only [List.map_cons, List.mem_cons] at hx ⊢
      rcases hx with rfl | hx
      · exact Or.inr rfl
      · exact Or.inl (Or.inr hx)
    · rw [if_neg h] at hx
      simp only [List.map_cons, List.mem_cons] at hx ⊢
      rcases hx with rfl | hx
      · exact Or.inl (Or.inl rfl)
      · rcases ih k v x hx with hm | rfl
        · exact Or.inl (Or.inr hm)
        · exact Or.inr rfl

lemma alistSet_keys_nodup {κ α : Type} [DecidableEq κ] :
    ∀ (l : List (κ × α)) (k : κ) (v : α),
      (l.map Prod.fst).Nodup → ((alistSet l k v).map Prod.fst).Nodup := by
  intro l
  induction l with
  | nil => intro k v _; simp [alistSet]
  | cons e rest ih =>
    intro k v hnd
    obtain ⟨k', v'⟩ := e
    simp only [List.map_cons, List.nodup_cons] at hnd
    rw [alistSet]
    by_cases h : k' = k
    · rw [if_pos h]
      simp only [List.map_cons, List.nodup_cons]
      exact ⟨by rw [← h]; exact hnd.1, hnd.2⟩
    · rw [if_neg h]
      simp only [List.map_cons, List.nodup_cons]
      refine ⟨?_, ih k v hnd.2⟩
      intro hmem
      rcases mem_keys_alistSet rest k v k' hmem with hm | rfl
      · exact hnd.1 hm
      · exact h rfl

lemma mem_alistSet {κ α : Type} [DecidableEq κ] :
    ∀ (l : List (κ × α)) (k : κ) (v : α) (kv : κ × α),
      kv ∈ alistSet l k v → kv = (k, v) ∨ kv ∈ l := by
  intro l
  induction l with
  | nil =>
    intro k v kv hkv
    simp [alistSet] at hkv
    exact Or.inl hkv
  | cons e rest ih =>
    intro k v kv hkv
    obtain ⟨k', v'⟩ := e
    rw [alistSet] at hkv
    by_cases h : k' = k
    · rw [if_pos h] at hkv
      simp only [List.mem_cons] at hkv ⊢
      rcases hkv with rfl | hkv
      · exact Or.inl rfl
      · exact Or.inr (Or.inr hkv)
    · rw [if_neg h] at hkv
      simp only [List.mem_cons] at hkv ⊢
      rcases hkv with rfl | hkv
      · exact Or.inr (Or.inl rfl)
      · rcases ih k v kv hkv with hk | hk
        · exact Or.inl hk
        · exact Or.inr (Or.inr hk)

lemma mergeEvents_path (ex new : FSEvent) : (mergeEvents ex new).path = ex.path := rfl

lemma eqstate_add_wf (q : EQState) (deb now : Int) (e : FSEvent) (hq : q.wf) :
    (q.add deb now e).wf := by
  obtain ⟨hnd, hval⟩ := hq
  have hset : ∀ qe : QueuedEvent, qe.event.path = e.path →
      (EQState.wf ⟨alistSet q.pending e.path qe⟩) := by
    intro qe hpath
    constructor
    · exact alistSet_keys_nodup _ _ _ hnd
    · intro kv hkv
      rcases mem_alistSet _ _ _ kv hkv with rfl | hkv
      · exact hpath
      · exact hval kv hkv
  unfold EQState.add
  rcases hg : alistGet q.pending e.path with _ | queued
  · exact hset ⟨e, now⟩ rfl
  · simp only
    by_cases hdeb : now - queued.lastSeen ≤ deb
    · rw [if_pos hdeb]
      apply hset
      rw [mergeEvents_path]
      -- the queued event is stored under its own path, which is `e.path`
      exact hval (e.path, queued) (alistGet_mem _ _ _ hg)
    · rw [if_neg hdeb]
      exact hset ⟨e, now⟩ rfl

lemma eqstate_flush_wf (q : EQState) (fi now : Int) (force : Bool) (hq : q.wf) :
    ((flushDue q fi now force).1.map (fun ev => ev.path)).Nodup
    ∧ (flushDue q fi now force).2.wf := by
  obtain ⟨hnd, hval⟩ := hq
  constructor
  · show (((q.pending.filter
        (fun kv => force || decide (fi ≤ now - kv.2.lastSeen))).map
          (fun kv => kv.2.event)).map (fun ev => ev.path)).Nodup
    rw [List.map_map]
    have hcongr : (q.pending.filter
        (fun kv => force || decide (fi ≤ now - kv.2.lastSeen))).map
          ((fun ev : FSEvent => ev.path) ∘ (fun kv : FPath × QueuedEvent => kv.2.event))
        = (q.pending.filter
            (fun kv => force || decide (fi ≤ now - kv.2.lastSeen))).map Prod.fst := by
      apply List.map_congr_left
      intro kv hkv
      exact hval kv (List.mem_of_mem_filter hkv)
    rw [hcongr]
    exact List.Nodup.sublist ((List.filter_sublist _).map Prod.fst) hnd
  · constructor
    · exact List.Nodup.sublist ((List.filter_sublist _).map Prod.fst) hnd
    · intro kv hkv
      exact hval kv (List.mem_of_mem_filter hkv)

lemma add_add_same_path (e0 e1 : FSEvent) (deb t0 t1 : Int)
    (hp : e1.path = e0.path) (hdeb : t1 - t0 ≤ deb) :
    ((EQState.mk []).add deb t0 e0).add deb t1 e1
      = ⟨[(e0.path, ⟨mergeEvents e0 e1, t1⟩)]⟩ := by
  have h1 : (EQState.mk []).add deb t0 e0 = ⟨[(e0.path, ⟨e0, t0⟩)]⟩ := rfl
  rw [h1]
  unfold EQState.add
  rw [hp]
  have hg : alistGet [(e0.path, (⟨e0, t0⟩ : QueuedEvent))] e0.path = some ⟨e0, t0⟩ := by
    rw [alistGet, if_pos rfl]
  rw [hg]
  simp only
  rw [if_pos hdeb]
  rw [alistSet, if_pos rfl]

/-- C6: two events for the same path within the debounce interval merge
into one pending event whose type follows the table (new DELETED wins, new
MOVED wins, CREATED + MODIFIED collapses to CREATED, otherwise the new
type); in particular CREATED-then-MODIFIED flushes as exactly one CREATED
event, and CREATED-then-DELETED flushes as DELETED. -/
theorem c6_debounce_merge :
    (∀ ex new : FSEvent,
      (mergeEvents ex new).eventType = mergeTypeSpec ex.eventType new.eventType)
    ∧ (∀ (e0 e1 : FSEvent) (deb fi t0 t1 now : Int),
        e1.path = e0.path →
        e0.eventType = EventType.created → e1.eventType = EventType.modified →
        t1 - t0 ≤ deb →
        (flushDue (((EQState.mk []).add deb t0 e0).add deb t1 e1) fi now true).1
            = [mergeEvents e0 e1]
          ∧ (mergeEvents e0 e1).eventType = EventType.created)
    ∧ (∀ (e0 e1 : FSEvent) (deb fi t0 t1 now : Int),
        e1.path = e0.path →
        e0.eventType = EventType.created → e1.eventType = EventType.deleted →
        t1 - t0 ≤ deb →
        (flushDue (((EQState.mk []).add deb t0 e0).add deb t1 e1) fi now true).1
            = [mergeEvents e0 e1]
          ∧ (mergeEvents e0 e1).eventType = EventType.deleted) := by
  refine ⟨fun ex new => rfl, ?_, ?_⟩
  · intro e0 e1 deb fi t0 t1 now hp h0 h1 hdeb
    refine ⟨?_, ?_⟩
    · rw [add_add_same_path e0 e1 deb t0 t1 hp hdeb]
      rfl
    · simp [mergeEvents, h0, h1]
  · intro e0 e1 deb fi t0 t1 now hp h0 h1 hdeb
    refine ⟨?_, ?_⟩
    · rw [add_add_same_path e0 e1 deb t0 t1 hp hdeb]
      rfl
    · simp [mergeEvents, h1]

/-- Witness for `c6_debounce_merge`: CREATED at time 0 then MODIFIED at
time 1 with debounce 2 flushes as a single CREATED event. -/
theorem c6_debounce_merge_witness :
    (flushDue (((EQState.mk []).add 2 0
        ⟨⟨["w"], "f.txt"⟩, EventType.created, 0, false, none, []⟩).add 2 1
        ⟨⟨["w"], "f.txt"⟩, EventType.modified, 1, false, none, []⟩) 1 5 true).1
      = [mergeEvents ⟨⟨["w"], "f.txt"⟩, EventType.created, 0, false, none, []⟩
           ⟨⟨["w"], "f.txt"⟩, EventType.modified, 1, false, none, []⟩]
    ∧ (mergeEvents ⟨⟨["w"], "f.txt"⟩, EventType.created, 0, false, none, []⟩
         ⟨⟨["w"], "f.txt"⟩, EventType.modified, 1, false, none, []⟩).eventType
        = EventType.created :=
  c6_debounce_merge.2.1
    ⟨⟨["w"], "f.txt"⟩, EventType.created, 0, false, none, []⟩
    ⟨⟨["w"], "f.txt"⟩, EventType.modified, 1, false, none, []⟩
    2 1 0 1 5 rfl rfl rfl (by decide)

/-- C10: the queue holds at most one pending event per path (the pending
map's keys stay distinct through `add` and `flush_due`, so a batch holds
at most one event per path), and a new event arriving more than the
debounce interval after the pending event replaces it wholesale - the
earlier event is dropped from the state without ever being emitted
(`add` emits nothing). -/
theorem c10_single_pending_per_path :
    (EQState.mk []).wf
    ∧ (∀ (q : EQState) (deb now : Int) (e : FSEvent), q.wf → (q.add deb now e).wf)
    ∧ (∀ (q : EQState) (fi now : Int) (force : Bool), q.wf →
        ((flushDue q fi now force).1.map (fun ev => ev.path)).Nodup
        ∧ (flushDue q fi now force).2.wf)
    ∧ (∀ (q : EQState) (deb now : Int) (e0q : QueuedEvent) (e1 : FSEvent) (p : FPath),
        alistGet q.pending p = some e0q → e1.path = p → deb < now - e0q.lastSeen →
        (q.add deb now e1).pending = alistSet q.pending p ⟨e1, now⟩
        ∧ alistGet (q.add deb now e1).pending p = some ⟨e1, now⟩) := by
  refine ⟨⟨List.nodup_nil, fun kv hkv => absurd hkv (List.not_mem_nil kv)⟩,
    eqstate_add_wf, eqstate_flush_wf, ?_⟩
  intro q deb now e0q e1 p hget hp hstale
  have hset : (q.add deb now e1).pending = alistSet q.pending p ⟨e1, now⟩ := by
    unfold EQState.add
    rw [hp, hget]
    simp only
    rw [if_neg (by omega)]
  exact ⟨hset, by rw [hset]; exact alistGet_set_eq _ _ _⟩

/-- Witness for `c10_single_pending_per_path`: a pending event from time 0
with debounce 2 is replaced wholesale by an event arriving at time 10. -/
theorem c10_single_pending_per_path_witness :
    ((EQState.mk [(⟨["w"], "f.txt"⟩,
        ⟨⟨⟨["w"], "f.txt"⟩, EventType.created, 0, false, none, []⟩, 0⟩)]).add 2 10
        ⟨⟨["w"], "f.txt"⟩, EventType.modified, 10, false, none, []⟩).pending
      = alistSet [(⟨["w"], "f.txt"⟩,
          ⟨⟨⟨["w"], "f.txt"⟩, EventType.created, 0, false, none, []⟩, 0⟩)]
          ⟨["w"], "f.txt"⟩
          ⟨⟨⟨["w"], "f.txt"⟩, EventType.modified, 10, false, none, []⟩, 10⟩
    ∧ alistGet ((EQState.mk [(⟨["w"], "f.txt"⟩,
        ⟨⟨⟨["w"], "f.txt"⟩, EventType.created, 0, false, none, []⟩, 0⟩)]).add 2 10
        ⟨⟨["w"], "f.txt"⟩, EventType.modified, 10, false, none, []⟩).pending
          ⟨["w"], "f.txt"⟩
      = some ⟨⟨⟨["w"], "f.txt"⟩, EventType.modified, 10, false, none, []⟩, 10⟩ :=
  c10_single_pending_per_path.2.2.2
    (EQState.mk [(⟨["w"], "f.txt"⟩,
      ⟨⟨⟨["w"], "f.txt"⟩, EventType.created, 0, false, none, []⟩, 0⟩)])
    2 10
    ⟨⟨⟨["w"], "f.txt"⟩, EventType.created, 0, false, none, []⟩, 0⟩
    ⟨⟨["w"], "f.txt"⟩, EventType.modified, 10, false, none, []⟩
    ⟨["w"], "f.txt"⟩
    (by decide) rfl (by decide)

/-- C9: a considered entry whose backup file is missing, or whose backup's
recomputed digest differs from the recorded one, is skipped - no file is
moved for it, the rest of the batch continues on the unchanged filesystem,
and it contributes nothing to the returned restored list; an entry whose
backup exists with a matching digest is moved back to its original path
and that path is prepended to the restored list. -/
theorem c9_restore_integrity (hash : List Nat → List Nat) (fs : FS) (dryRun : Bool)
    (tf : List String) (e : RollbackEntry) (rest : List RollbackEntry)
    (hcons : tf = [] ∨ entryMatches e tf = true) :
    (alistGet fs e.backupPath = none →
      restore hash fs dryRun tf (e :: rest) = restore hash fs dryRun tf rest)
    ∧ (∀ content, alistGet fs e.backupPath = some content → hash content ≠ e.sha256 →
      restore hash fs dryRun tf (e :: rest) = restore hash fs dryRun tf rest)
    ∧ (∀ content, alistGet fs e.backupPath = some content → hash content = e.sha256 →
      dryRun = false →
      restore hash fs dryRun tf (e :: rest)
        = ((restore hash (moveFile fs e.backupPath e.originalPath content) dryRun tf rest).1,
           e.originalPath ::
             (restore hash (moveFile fs e.backupPath e.originalPath content) dryRun tf rest).2)
      ∧ alistGet (moveFile fs e.backupPath e.originalPath content) e.originalPath
          = some content) := by
  have hnc : ¬ (tf ≠ [] ∧ entryMatches e tf = false) := by
    rcases hcons with h | h
    · exact fun hx => hx.1 h
    · exact fun hx => by rw [h] at hx; cases hx.2
  refine ⟨?_, ?_, ?_⟩
  · intro hget
    rw [restore, if_neg hnc, hget]
  · intro content hget hne
    rw [restore, if_neg hnc, hget]
    simp only
    rw [if_pos hne]
  · intro content hget heq hdry
    constructor
    · rw [restore, if_neg hnc, hget]
      simp only
      rw [if_neg (fun hx => hx heq), hdry]
      simp only [Bool.false_eq_true, if_false]
    · exact alistGet_set_eq _ _ _

/-- Witness for `c9_restore_integrity`: a one-entry batch whose backup
holds `[7]` with a matching recorded digest (digest function is the
identity) is restored: the result lists exactly the original path and the
file is back at its original location. -/
theorem c9_restore_integrity_witness :
    restore (fun c => c) [(⟨["bak"], "doc.txt"⟩, [7])] false []
        [⟨⟨["orig"], "doc.txt"⟩, ⟨["bak"], "doc.txt"⟩, [7], none⟩]
      = ((restore (fun c => c)
            (moveFile [(⟨["bak"], "doc.txt"⟩, [7])] ⟨["bak"], "doc.txt"⟩
              ⟨["orig"], "doc.txt"⟩ [7]) false [] []).1,
         ⟨["orig"], "doc.txt"⟩ ::
           (restore (fun c => c)
             (moveFile [(⟨["bak"], "doc.txt"⟩, [7])] ⟨["bak"], "doc.txt"⟩
               ⟨["orig"], "doc.txt"⟩ [7]) false [] []).2)
    ∧ alistGet (moveFile [(⟨["bak"], "doc.txt"⟩, [7])] ⟨["bak"], "doc.txt"⟩
          ⟨["orig"], "doc.txt"⟩ [7]) ⟨["orig"], "doc.txt"⟩
        = some [7] :=
  (c9_restore_integrity (fun c => c) [(⟨["bak"], "doc.txt"⟩, [7])] false []
      ⟨⟨["orig"], "doc.txt"⟩, ⟨["bak"], "doc.txt"⟩, [7], none⟩ []
      (Or.inl rfl)).2.2 [7] (by decide) (by decide) rfl

lemma mem_alistDrop {κ α : Type} [DecidableEq κ] :
    ∀ (l : List (κ × α)) (k : κ) (kv : κ × α), kv ∈ alistDrop l k → kv ∈ l := by
  intro l
  induction l with
  | nil => intro k kv h; cases h
  | cons e rest ih =>
    intro k kv h
    obtain ⟨k', v'⟩ := e
    rw [alistDrop] at h
    by_cases hk : k' = k
    · rw [if_pos hk] at h
      exact List.mem_cons_of_mem _ (ih k kv h)
    · rw [if_neg hk] at h
      rcases List.mem_cons.mp h with rfl | h
      · exact List.mem_cons_self _ _
      · exact List.mem_cons_of_mem _ (ih k kv h)

lemma extLookup_fst (rules : Rules) (cache : ExtCache) (suf : String) :
    (extLookup rules cache suf).1
      = match alistGet rules.extension suf with
        | some cat => some ⟨100, "extension", cat, suf⟩
        | none => none := by
  unfold extLookup
  cases alistGet rules.extension suf <;> rfl

lemma extLookup_snd_faithful (rules : Rules) (cache : ExtCache) (suf : String)
    (h : cacheFaithful rules cache) :
    cacheFaithful rules (extLookup rules cache suf).2 := by
  unfold extLookup
  cases hg : alistGet rules.extension suf with
  | none => exact h
  | some cat =>
    simp only
    unfold rememberExtension
    by_cases hl : 1000 < (alistSet cache suf cat).length
    · rw [if_pos hl]
      intro kv hkv
      rcases mem_alistSet _ _ _ kv (List.mem_of_mem_drop hkv) with rfl | hm
      · exact hg
      · exact h kv hm
    · rw [if_neg hl]
      intro kv hkv
      rcases mem_alistSet _ _ _ kv hkv with rfl | hm
      · exact hg
      · exact h kv hm

lemma extensionStep_fst (rules : Rules) (suf : String) (cache : ExtCache)
    (h : cacheFaithful rules cache) :
    (extensionStep rules suf cache).1 = (extensionStep rules suf []).1 := by
  unfold extensionStep
  by_cases hs : suf = ""
  · rw [if_pos hs]
    rw [if_pos hs]
  · rw [if_neg hs]
    rw [if_neg hs]
    have hre : extCacheGet [] suf = (none, []) := rfl
    rw [hre]
    simp only
    cases hg : alistGet cache suf with
    | none =>
      have he : extCacheGet cache suf = (none, cache) := by
        unfold extCacheGet
        rw [hg]
      rw [he]
      simp only
      rw [extLookup_fst, extLookup_fst]
    | some cat =>
      have hrules : alistGet rules.extension suf = some cat :=
        h (suf, cat) (alistGet_mem cache suf cat hg)
      have he : extCacheGet cache suf = (some cat, alistDrop cache suf ++ [(suf, cat)]) := by
        unfold extCacheGet
        rw [hg]
      rw [he]
      simp only
      by_cases hc : cat ≠ ""
      · rw [if_pos hc]
        simp only
        rw [extLookup_fst, hrules]
      · rw [if_neg hc]
        rw [extLookup_fst, extLookup_fst]

lemma extensionStep_snd_faithful (rules : Rules) (suf : String) (cache : ExtCache)
    (h : cacheFaithful rules cache) :
    cacheFaithful rules (extensionStep rules suf cache).2 := by
  unfold extensionStep
  by_cases hs : suf = ""
  · rw [if_pos hs]
    exact h
  · rw [if_neg hs]
    cases hg : alistGet cache suf with
    | none =>
      have he : extCacheGet cache suf = (none, cache) := by
        unfold extCacheGet
        rw [hg]
      rw [he]
      simp only
      exact extLookup_snd_faithful rules cache suf h
    | some cat =>
      have hrules : alistGet rules.extension suf = some cat :=
        h (suf, cat) (alistGet_mem cache suf cat hg)
      have he : extCacheGet cache suf = (some cat, alistDrop cache suf ++ [(suf, cat)]) := by
        unfold extCacheGet
        rw [hg]
      rw [he]
      simp only
      have htouch : cacheFaithful rules (alistDrop cache suf ++ [(suf, cat)]) := by
        intro kv hkv
        rcases List.mem_append.mp hkv with hkv | hkv
        · exact h kv (mem_alistDrop _ _ _ hkv)
        · rw [List.mem_singleton.mp hkv]
          exact hrules
      by_cases hc : cat ≠ ""
      · rw [if_pos hc]
        exact htouch
      · rw [if_neg hc]
        exact extLookup_snd_faithful rules _ suf htouch

lemma classifyResult_cache_indep (o : Oracles) (rules : Rules) (cand : ClassCand)
    (cache : ExtCache) (h : cacheFaithful rules cache) :
    classifyResult o rules cand cache = classifyResult o rules cand [] := by
  unfold classifyResult classifyDecisions classifyByExtension
  rw [extensionStep_fst rules (normaliseSuffix (sufOf cand.path.name)) cache h]

lemma classify_snd_faithful (o : Oracles) (rules : Rules) (cand : ClassCand)
    (cache : ExtCache) (h : cacheFaithful rules cache) :
    cacheFaithful rules (classify o rules cand cache).2 := by
  unfold classify classifyByExtension
  exact extensionStep_snd_faithful rules _ cache h

/-- C7: `classify` is deterministic and cache-transparent: after any
sequence of earlier `classify` calls (any number, any order), classifying
a candidate returns the same category, confidence and rationale as with a
fresh (empty) extension cache - the LRU cache never changes the observable
result. -/
theorem c7_classify_deterministic (o : Oracles) (rules : Rules)
    (prev : List ClassCand) (cand : ClassCand) :
    (classify o rules cand (classifySeq o rules prev [])).1
      = (classify o rules cand []).1 := by
  have hseq : ∀ (p : List ClassCand) (cache : ExtCache), cacheFaithful rules cache →
      cacheFaithful rules (classifySeq o rules p cache) := by
    intro p
    induction p with
    | nil => intro cache h; exact h
    | cons c rest ih =>
      intro cache h
      exact ih _ (classify_snd_faithful o rules c cache h)
  show classifyResult o rules cand (classifySeq o rules prev [])
      = classifyResult o rules cand []
  exact classifyResult_cache_indep o rules cand _
    (hseq prev [] (fun kv hkv => absurd hkv (List.not_mem_nil kv)))

end AutoOrganizer
